import Mathlib

/-!
Verification development for the zovoice-viewer repository.

The program under study is a browser-based book editor
(src/app/page.tsx, src/app/hooks/useCommands.ts,
src/app/hooks/useNotifications.ts).  This file gives a shallow
embedding of its core logic and proves properties about it.

Modelling conventions:
* JavaScript strings are modelled as `List Char`; positions and
  lengths are `Nat` (the code only ever works with non-negative
  offsets).  Character classes (`\s`, `\w`, `[a-zA-Z]`) and case
  folding are modelled over ASCII, which covers every character the
  code treats specially.
* JavaScript numbers used as scores are modelled exactly as `Int`
  values in hundredths of a point (centipoints): every score the code
  builds is a sum of the constants 5, 10, 15, 20, 50 and of
  `length / 100` capped at 10, so multiplying through by 100 keeps
  all arithmetic and all comparisons exact over the integers.  A score
  of s points appears as `100 * s` below (10 becomes 1000, the
  threshold 15 becomes 1500, `min(length / 100, 10)` becomes
  `min(length, 1000)`).
* Page numbers are modelled as `Int`, identifiers as `String`.
* Fallible lookups return `Option`.
-/

/-- Model of the JavaScript `\s` whitespace class (ASCII part),
used by `trim`, `split(/\s+/)` and the command trigger test. -/
def isWS (c : Char) : Bool :=
  c = ' ' || c = '\n' || c = '\t' || c = '\r' ||
  c = Char.ofNat 11 || c = Char.ofNat 12

/-- Model of the JavaScript `\w` word-character class `[A-Za-z0-9_]`. -/
def isWordChar (c : Char) : Bool :=
  ('a' ≤ c && c ≤ 'z') || ('A' ≤ c && c ≤ 'Z') ||
  ('0' ≤ c && c ≤ '9') || c = '_'

/-- Model of `[a-zA-Z]` used by the command query pattern. -/
def isAsciiLetter (c : Char) : Bool :=
  ('a' ≤ c && c ≤ 'z') || ('A' ≤ c && c ≤ 'Z')

/-- ASCII model of `String.prototype.toLowerCase` on one character. -/
def toLowerCh (c : Char) : Char :=
  if 'A' ≤ c && c ≤ 'Z' then Char.ofNat (c.toNat + 32) else c

/-- ASCII model of `String.prototype.toLowerCase`. -/
def toLowerList (l : List Char) : List Char := l.map toLowerCh

/-- Model of `String.prototype.substring(a, b)`: both arguments are
clamped to the string length and swapped when out of order. -/
def jsSubstring (l : List Char) (a b : Nat) : List Char :=
  let a2 := min a l.length
  let b2 := min b l.length
  (l.take (max a2 b2)).drop (min a2 b2)

/-- Model of `String.prototype.charAt` style indexing `content[i]`
with a possibly negative index: `undefined` becomes `none`. -/
def jsCharAt (l : List Char) (i : Int) : Option Char :=
  if i < 0 then none else l.get? i.toNat

/-- Model of `String.prototype.trim` (remove whitespace at both ends). -/
def trimWS (l : List Char) : List Char :=
  ((l.dropWhile isWS).reverse.dropWhile isWS).reverse

/-- Model of `str.split('\n\n')`: split on the leftmost,
non-overlapping occurrences of the two-newline separator.
`splitNN [] = [[]]`, matching `''.split('\n\n') = ['']`. -/
def splitNN : List Char → List (List Char)
  | [] => [[]]
  | [c] => [[c]]
  | c1 :: c2 :: rest =>
    if c1 = '\n' ∧ c2 = '\n' then
      [] :: splitNN rest
    else
      match splitNN (c2 :: rest) with
      | [] => [[c1]]
      | p :: ps => (c1 :: p) :: ps

/-- Model of `parts.join('\n\n')`. -/
def joinNN (parts : List (List Char)) : List Char :=
  (parts.intersperse ['\n', '\n']).flatten

/-- Whether a string contains the two-newline separator, used to state
when the separator-split of a join recovers the original parts. -/
def hasNN : List Char → Bool
  | [] => false
  | [_] => false
  | c1 :: c2 :: rest => (c1 = '\n' && c2 = '\n') || hasNN (c2 :: rest)

/-- An original section of the input book
(src/app/types/index.ts, interface Section). -/
structure Sec where
  section_id : String
  content : List Char
  content_type : String
  page_number : Int
  raw_text : Option String
  level : Option String
deriving DecidableEq

/-- A chapter of the input book (src/app/types/index.ts). -/
structure Chapter where
  chapter_id : String
  title : String
  sections : List Sec
deriving DecidableEq

/-- One entry of the derived section index
(src/app/types/index.ts, interface SectionMap, without the optional
score which only appears on resolver results). -/
structure SectionMap where
  start : Nat
  end_ : Nat
  pageNumber : Int
  sectionId : String
deriving DecidableEq

/-- A resolver result: a SectionMap together with a score, as built by
`{...section, score}` in src/app/page.tsx. -/
structure LocResult where
  start : Nat
  end_ : Nat
  pageNumber : Int
  sectionId : String
  score : Int
deriving DecidableEq

/-- Attach a score to an index entry (the `{...section, score}` spread). -/
def toResult (s : SectionMap) (score : Int) : LocResult :=
  ⟨s.start, s.end_, s.pageNumber, s.sectionId, score⟩

/-- The loop of `handleJsonSubmit` (src/app/page.tsx lines 135-158):
walk the sections, give each a range of its content length, and
advance the cursor by the length plus the separator width 2. -/
def buildInitialLoop : List Sec → Nat → List SectionMap
  | [], _ => []
  | sec :: secs, pos =>
    ⟨pos, pos + sec.content.length, sec.page_number, sec.section_id⟩ ::
      buildInitialLoop secs (pos + sec.content.length + 2)

/-- The initial section map of a chapter, built at JSON load time. -/
def buildInitialSectionMap (sections : List Sec) : List SectionMap :=
  buildInitialLoop sections 0

/-- The loop of `rebuildSectionMap` (src/app/page.tsx lines 184-199):
zip the parts of the current content positionally against the original
sections, up to the shorter of the two lists; ranges are laid out with
the same cursor arithmetic as the initial builder. -/
def rebuildLoop : List (List Char) → List Sec → Nat → List SectionMap
  | [], _, _ => []
  | _, [], _ => []
  | part :: parts, sec :: secs, pos =>
    ⟨pos, pos + part.length, sec.page_number, sec.section_id⟩ ::
      rebuildLoop parts secs (pos + part.length + 2)

/-- `rebuildSectionMap` (src/app/page.tsx lines 174-205): split the
current content on the two-newline separator and zip against the
original section list. -/
def rebuildSectionMap (sections : List Sec) (newContent : List Char) :
    List SectionMap :=
  rebuildLoop (splitNN newContent) sections 0

/-- Model of `str.split(/\s+/)`: split on maximal whitespace runs.
Leading or trailing whitespace produces empty edge tokens, exactly as
in JavaScript.  The Boolean flag records whether the scanner is inside
a separator run whose token has already been emitted; the recursion is
structural on the character list. -/
def splitWSCore : Bool → List Char → List Char → List (List Char)
  | _, [], acc => [acc.reverse]
  | false, c :: rest, acc =>
    if isWS c then acc.reverse :: splitWSCore true rest []
    else splitWSCore false rest (c :: acc)
  | true, c :: rest, acc =>
    if isWS c then splitWSCore true rest acc
    else splitWSCore false rest [c]

/-- Model of `str.split(/\s+/)`. -/
def splitWS (l : List Char) : List (List Char) := splitWSCore false l []

/-- Greedy matching of up to `n` repetitions of `\s+\w+` at the head
of the input; returns the number of repetitions matched, the consumed
characters, and the remaining input.  Used to model the phrase regex
`/\w+(?:\s+\w+){2,4}/g` of `findSectionAtCursor`. -/
def grabGroups : Nat → List Char → Nat × List Char × List Char
  | 0, l => (0, [], l)
  | n + 1, l =>
    let ws := l.takeWhile isWS
    let r1 := l.dropWhile isWS
    let w := r1.takeWhile isWordChar
    let r2 := r1.dropWhile isWordChar
    if ws.isEmpty || w.isEmpty then (0, [], l)
    else
      let g := grabGroups n r2
      (g.1 + 1, ws ++ w ++ g.2.1, g.2.2)

/-- The scanner of `contextText.match(/\w+(?:\s+\w+){2,4}/g)`: at
each position, greedily match a word run followed by two to four
further whitespace-separated word runs; on success emit the matched
phrase and continue after it, otherwise advance one character.  The
fuel argument bounds the number of scanning steps: every step either
recurses on a strict suffix past at least one consumed character or
advances exactly one character, so fuel equal to the input length (as
passed by `matchPhrases`) is never exhausted. -/
def matchPhrasesGo : Nat → List Char → List (List Char)
  | 0, _ => []
  | _ + 1, [] => []
  | fuel + 1, c :: rest =>
    if isWordChar c then
      let w0 := (c :: rest).takeWhile isWordChar
      let g := grabGroups 4 ((c :: rest).dropWhile isWordChar)
      if 2 ≤ g.1 then (w0 ++ g.2.1) :: matchPhrasesGo fuel g.2.2
      else matchPhrasesGo fuel rest
    else matchPhrasesGo fuel rest

/-- The list of phrases `contextText.match(/\w+(?:\s+\w+){2,4}/g)`
extracts (`[]` for a null match result). -/
def matchPhrases (l : List Char) : List (List Char) := matchPhrasesGo l.length l

/-- Model of `String.prototype.includes`: `jsIncludes hay needle`
holds when `needle` occurs contiguously inside `hay`. -/
def jsIncludes : List Char → List Char → Bool
  | hay@(_ :: rest), needle => needle.isPrefixOf hay || jsIncludes rest needle
  | [], needle => needle.isEmpty

/-- First loop of `findSectionByPosition` (src/app/page.tsx lines
335-339): the first index entry whose inclusive range contains the
cursor. -/
def findContaining : List SectionMap → Nat → Option SectionMap
  | [], _ => none
  | s :: rest, pos =>
    if s.start ≤ pos ∧ pos ≤ s.end_ then some s
    else findContaining rest pos

/-- Second loop of `findSectionByPosition` (src/app/page.tsx lines
341-351): the first adjacent pair whose gap strictly contains the
cursor, resolved to the numerically closer boundary entry
(ties to the earlier entry). -/
def findBetween : List SectionMap → Nat → Option SectionMap
  | a :: b :: rest, pos =>
    if a.end_ < pos ∧ pos < b.start then
      some (if pos - a.end_ ≤ b.start - pos then a else b)
    else findBetween (b :: rest) pos
  | _, _ => none

/-- `findSectionByPosition` (src/app/page.tsx lines 331-355). -/
def findSectionByPosition (sectionMap : List SectionMap) (cursorPos : Nat) :
    Option LocResult :=
  if sectionMap.isEmpty then none
  else
    match findContaining sectionMap cursorPos with
    | some s => some (toResult s 1000)
    | none =>
      match findBetween sectionMap cursorPos with
      | some s => some (toResult s 500)
      | none =>
        match sectionMap.getLast? with
        | some s => some (toResult s 500)
        | none => none

/-- The score the loop body of `findSectionAtCursor`
(src/app/page.tsx lines 278-310) computes for one section: word
matches of the two context windows, phrase matches of the combined
context, the position bonus from the current index, and the length
bonus for long sections that matched something. -/
def sectionScore (beforeCursor afterCursor contextText : List Char)
    (sectionMap : List SectionMap) (cursorPos : Nat) (sec : Sec) : Int :=
  let sectionContent := sec.content
  let beforeWords :=
    (splitWS (toLowerList beforeCursor)).filter (fun w => 2 < w.length)
  let afterWords :=
    (splitWS (toLowerList afterCursor)).filter (fun w => 2 < w.length)
  let sectionWords := splitWS (toLowerList sectionContent)
  let beforeMatches :=
    (beforeWords.filter (fun w => sectionWords.contains w)).length
  let afterMatches :=
    (afterWords.filter (fun w => sectionWords.contains w)).length
  let score1 : Int := (beforeMatches + afterMatches : ℕ) * 1000
  let contextPhrases := matchPhrases (toLowerList contextText)
  let score2 := contextPhrases.foldl
    (fun acc phrase =>
      if jsIncludes (toLowerList sectionContent) phrase then acc + 5000 else acc)
    score1
  let score3 :=
    match sectionMap.find? (fun s => s.sectionId == sec.section_id) with
    | some info =>
      if info.start ≤ cursorPos ∧ cursorPos ≤ info.end_ then score2 + 2000
      else score2
    | none => score2
  if 0 < score3 ∧ 50 < sectionContent.length then
    score3 + min (sectionContent.length : Int) 1000
  else score3

/-- The result object `{start: 0, end: sectionContent.length, ...}`
built for a context match (src/app/page.tsx lines 314-320). -/
def mkContextResult (sec : Sec) (score : Int) : LocResult :=
  ⟨0, sec.content.length, sec.page_number, sec.section_id, score⟩

/-- The `for (const section of chapter.sections)` loop of
`findSectionAtCursor`: sections with empty content are skipped, and
the best match is replaced only on a strictly greater score. -/
def findBestLoop (beforeCursor afterCursor contextText : List Char)
    (sectionMap : List SectionMap) (cursorPos : Nat) :
    List Sec → Option LocResult × Int → Option LocResult × Int
  | [], acc => acc
  | sec :: rest, acc =>
    if sec.content.isEmpty then
      findBestLoop beforeCursor afterCursor contextText sectionMap cursorPos
        rest acc
    else
      let score :=
        sectionScore beforeCursor afterCursor contextText sectionMap
          cursorPos sec
      if acc.2 < score then
        findBestLoop beforeCursor afterCursor contextText sectionMap
          cursorPos rest (some (mkContextResult sec score), score)
      else
        findBestLoop beforeCursor afterCursor contextText sectionMap
          cursorPos rest acc

/-- `findSectionAtCursor` (src/app/page.tsx lines 258-329): context
similarity scoring over the original sections, falling back to
`findSectionByPosition` when the trimmed 100-character context window
holds fewer than 10 characters, when no section scored above 0, or
when the best score is below 15. -/
def findSectionAtCursor (sections : List Sec) (sectionMap : List SectionMap)
    (currentContent : List Char) (cursorPos : Nat) : Option LocResult :=
  if currentContent.isEmpty then none
  else
    let beforeCursor := jsSubstring currentContent (cursorPos - 100) cursorPos
    let afterCursor :=
      jsSubstring currentContent cursorPos
        (min currentContent.length (cursorPos + 100))
    let contextText := beforeCursor ++ afterCursor
    if (trimWS contextText).length < 10 then
      findSectionByPosition sectionMap cursorPos
    else
      let best := findBestLoop beforeCursor afterCursor contextText sectionMap
        cursorPos sections (none, 0)
      match best.1 with
      | none => findSectionByPosition sectionMap cursorPos
      | some r =>
        if best.2 < 1500 then findSectionByPosition sectionMap cursorPos
        else some r

/-- The page-update decision of `handleCursorPositionChange`
(src/app/page.tsx lines 378-383): navigate only when a section was
resolved, its page differs from the current page, and its score is at
least 15. -/
def handleCursorPageUpdate (sections : List Sec)
    (sectionMap : List SectionMap) (content : List Char) (cursorPos : Nat)
    (currentPage : Int) : Int :=
  match findSectionAtCursor sections sectionMap content cursorPos with
  | some s =>
    if s.pageNumber ≠ currentPage then
      if 1500 ≤ s.score then s.pageNumber else currentPage
    else currentPage
  | none => currentPage

/-- Command-mode state (src/app/types/index.ts, interface CommandMode).
The `active` flag is represented by wrapping the state in `Option`
(`none` is the idle state, matching `commandMode === null`), and the
screen-space `coords` anchor, a pure presentation measurement of the
caret, is not modelled. -/
structure CommandMode where
  chapterId : String
  position : Nat
  query : List Char
deriving DecidableEq

/-- `checkForCommand` (src/app/hooks/useCommands.ts lines 333-398):
activate command mode when the character before the cursor is the
backslash trigger and it sits at the buffer start or after whitespace;
otherwise, while a mode for this chapter is active, re-derive the
query from the text between the recorded position and the cursor,
cancelling when it no longer matches `\\` followed by letters. -/
def checkForCommand (commandMode : Option CommandMode) (chapterId : String)
    (content : List Char) (cursorPos : Nat) : Option CommandMode :=
  let charAtCursor := jsCharAt content ((cursorPos : Int) - 1)
  let wsBefore : Bool :=
    match jsCharAt content ((cursorPos : Int) - 2) with
    | some c => isWS c
    | none => false
  if (charAtCursor == some '\\') && (cursorPos == 1 || wsBefore) then
    some ⟨chapterId, cursorPos - 1, []⟩
  else
    match commandMode with
    | some mode =>
      if mode.chapterId = chapterId then
        let commandText := jsSubstring content mode.position cursorPos
        if commandText.head? = some '\\' ∧ commandText.tail.all isAsciiLetter
        then some ⟨mode.chapterId, mode.position, commandText.tail⟩
        else none
      else some mode
    | none => none

/-- The identity of a command action; the closures themselves mutate
the document and are modelled where needed (see `splitChapter`), while
`executeCommand` only needs to know which action was dispatched with
which arguments. -/
inductive CommandAction where
  | split
  | rename
  | duplicate
  | mergeNext
  | mergePrev
  | clear
  | summary
  | highlight
deriving DecidableEq

/-- A palette command (src/app/types/index.ts, interface Command). -/
structure Command where
  id : String
  label : String
  description : String
  icon : String
  keywords : List String
  action : CommandAction
deriving DecidableEq

/-- The fixed command registry (src/app/hooks/useCommands.ts lines
219-284), in declaration order. -/
def commands : List Command :=
  [ ⟨"split", "Split Chapter",
      "Split this chapter into two at cursor position", "✂️",
      ["split", "divide", "break", "separate"], CommandAction.split⟩,
    ⟨"rename", "Rename Chapter", "Edit the chapter title", "✏️",
      ["rename", "title", "edit", "name"], CommandAction.rename⟩,
    ⟨"duplicate", "Duplicate Chapter", "Create a copy of this chapter", "📋",
      ["duplicate", "copy", "clone"], CommandAction.duplicate⟩,
    ⟨"merge", "Merge with Next", "Merge this chapter with the next one", "🔗",
      ["merge", "combine", "join", "next"], CommandAction.mergeNext⟩,
    ⟨"mergePrev", "Merge with Previous",
      "Merge this chapter with the previous one", "🔗",
      ["merge", "combine", "join", "previous", "prev"],
      CommandAction.mergePrev⟩,
    ⟨"clear", "Clear Content", "Remove all content from this chapter", "🗑️",
      ["clear", "empty", "delete", "remove"], CommandAction.clear⟩,
    ⟨"summary", "Add Summary", "Insert a summary section at cursor", "📝",
      ["summary", "overview", "abstract"], CommandAction.summary⟩,
    ⟨"highlight", "Highlight Text",
      "Add highlighting markup to selected text", "🖍️",
      ["highlight", "mark", "emphasis"], CommandAction.highlight⟩ ]

/-- The filter of `filteredCommands` (src/app/hooks/useCommands.ts
lines 286-292): with an empty (or absent) query every command passes;
otherwise the lowercased query must occur inside a keyword, the
lowercased label, or the lowercased description. -/
def commandMatches (query : List Char) (c : Command) : Bool :=
  query.isEmpty ||
  (c.keywords.any (fun k => jsIncludes k.toList (toLowerList query)) ||
   jsIncludes (toLowerList c.label.toList) (toLowerList query) ||
   jsIncludes (toLowerList c.description.toList) (toLowerList query))

/-- `filteredCommands` for a given command-mode state. -/
def filteredCommands (commandMode : Option CommandMode) : List Command :=
  commands.filter
    (fun c =>
      match commandMode with
      | some m => commandMatches m.query c
      | none => true)

/-- The association list modelling the `chapterContents` record
(chapter id to editable buffer). -/
def lookupContent (m : List (String × List Char)) (k : String) : List Char :=
  match m.find? (fun kv => kv.1 == k) with
  | some kv => kv.2
  | none => []

/-- Object-spread update `{...prev, [k]: v}`: replace the value in
place when the key exists (object keys are unique, so the first match
is the only one), append the pair otherwise. -/
def setContent : List (String × List Char) → String → List Char →
    List (String × List Char)
  | [], k, v => [(k, v)]
  | kv :: rest, k, v =>
    if kv.1 == k then (k, v) :: rest
    else kv :: setContent rest k v

/-- The editor state touched by command execution: the per-chapter
content map, the command-mode state, and a log recording each call of
a command action together with its `(chapterId, position)` arguments
(in the source those calls are closures invoked by
`command.action(chapterId, position)`). -/
structure CmdState where
  contents : List (String × List Char)
  commandMode : Option CommandMode
  actionLog : List (CommandAction × String × Nat)
deriving DecidableEq

/-- `executeCommand` (src/app/hooks/useCommands.ts lines 400-417):
when a mode is active, remove `query.length + 1` characters (the
trigger and the query) from the buffer at the recorded position,
invoke the chosen action with `(chapterId, position)`, and return to
idle.  With no active mode nothing happens. -/
def executeCommand (command : Command) (st : CmdState) : CmdState :=
  match st.commandMode with
  | none => st
  | some cm =>
    let content := lookupContent st.contents cm.chapterId
    let newContent :=
      content.take cm.position ++
        content.drop (cm.position + cm.query.length + 1)
    { contents := setContent st.contents cm.chapterId newContent
      commandMode := none
      actionLog := st.actionLog ++ [(command.action, cm.chapterId, cm.position)] }

/-- The Enter branch of the textarea `onKeyDown` handler
(src/app/page.tsx lines 813-825): only when a command mode is active
for this chapter and the filtered list is non-empty is a command
executed (the selected one, or the first when the selection index is
out of range); otherwise the state is untouched. -/
def onEnterTextarea (chapterId : String) (selectedIndex : Nat)
    (st : CmdState) : CmdState :=
  match st.commandMode with
  | some cm =>
    if cm.chapterId = chapterId then
      let filtered := filteredCommands st.commandMode
      match filtered.get? selectedIndex, filtered.head? with
      | some c, _ => executeCommand c st
      | none, some c0 => executeCommand c0 st
      | none, none => st
    else st
  | none => st

/-- The document state `splitChapter` operates on: the chapter list of
`bookData.data` and the `chapterContents` map. -/
structure DocState where
  chapters : List Chapter
  contents : List (String × List Char)
deriving DecidableEq

/-- `splitChapter` (src/app/hooks/useCommands.ts lines 28-75).  The
fresh id suffix `Date.now()` is passed in as `now`.  On failure
(either half empty after trimming, or no such chapter) the state is
returned untouched; on success the source chapter keeps the trimmed
before-text, and a new chapter whose title gains the suffix
" (Part 2)" is inserted right after it with the trimmed after-text. -/
def splitChapter (st : DocState) (chapterId : String) (position : Nat)
    (now : Nat) : DocState :=
  let content := lookupContent st.contents chapterId
  let beforeContent := trimWS (content.take position)
  let afterContent := trimWS (content.drop position)
  if beforeContent.isEmpty || afterContent.isEmpty then st
  else
    match st.chapters.find? (fun ch => ch.chapter_id == chapterId) with
    | none => st
    | some chapter =>
      let chapterIndex := st.chapters.findIdx (fun ch => ch.chapter_id == chapterId)
      let newChapterId := chapterId ++ "-split-" ++ toString now
      let newChapter : Chapter :=
        ⟨newChapterId, chapter.title ++ " (Part 2)",
          chapter.sections.map
            (fun s => { s with section_id := s.section_id ++ "-split",
                               content := [] })⟩
      { chapters :=
          st.chapters.take (chapterIndex + 1) ++
            newChapter :: st.chapters.drop (chapterIndex + 1)
        contents :=
          setContent (setContent st.contents chapterId beforeContent)
            newChapterId afterContent }

/-- An event of the notification timeline: a `showNotification` call
setting the message, or the firing of a `setTimeout` scheduled by an
earlier call, which clears the state unconditionally
(src/app/hooks/useNotifications.ts, `setTimeout(() =>
setNotification(null), 3000)`). -/
inductive NEvent where
  | show (msg : String)
  | expire
deriving DecidableEq

/-- Effect of one timeline event on the notification state. -/
def stepNotif (s : Option String) (e : NEvent) : Option String :=
  match e with
  | NEvent.show m => some m
  | NEvent.expire => none

/-- Insert an event into a time-ordered list, after any event with the
same or an earlier time (stable with respect to arrival order). -/
def insertByTime (x : Nat × NEvent) : List (Nat × NEvent) → List (Nat × NEvent)
  | [] => [x]
  | y :: ys => if x.1 < y.1 then x :: y :: ys else y :: insertByTime x ys

/-- The full event timeline of a run of `showNotification` calls: each
call at time `t` contributes a show event at `t` and an expiry event at
`t + 3000`, ordered by time. -/
def eventsOf (shows : List (Nat × String)) : List (Nat × NEvent) :=
  (shows.flatMap
    (fun sh => [(sh.1, NEvent.show sh.2), (sh.1 + 3000, NEvent.expire)])).foldr
    insertByTime []

/-- The notification state observed at time `T` after a run of
`showNotification` calls: all events up to `T` applied in order. -/
def notificationAt (shows : List (Nat × String)) (T : Nat) : Option String :=
  ((eventsOf shows).filter (fun e => e.1 ≤ T)).foldl
    (fun s e => stepNotif s e.2) none

/-- Specification-level count of context-word matches for one window,
written from the amended wording of claim C3: the number of window
words of length above 2 (case-insensitive) that also occur among the
whitespace-split words of the section text, counted once per
occurrence in the window. -/
def contextWordMatches (window : List Char) (sec : Sec) : Nat :=
  ((splitWS (toLowerList window)).filter (fun w => 2 < w.length)).countP
    (fun w => (splitWS (toLowerList sec.content)).contains w)

/-- Specification-level count of matched context phrases: the number
of 3-to-5-word phrases greedily extracted from the combined context
that occur verbatim (case-insensitive) in the section text. -/
def phraseMatchCount (contextText : List Char) (sec : Sec) : Nat :=
  (matchPhrases (toLowerList contextText)).countP
    (fun p => jsIncludes (toLowerList sec.content) p)

/-- Specification-level position bonus: 20 when the cursor offset
falls within the section's current index range. -/
def positionBonus (sectionMap : List SectionMap) (cursorPos : Nat)
    (sec : Sec) : Int :=
  match sectionMap.find? (fun s => s.sectionId == sec.section_id) with
  | some info =>
    if info.start ≤ cursorPos ∧ cursorPos ≤ info.end_ then 2000 else 0
  | none => 0

/-- Specification-level section score, following the amended claim C3:
10 points per matching context-word occurrence on each side, 50 per
matching extracted phrase, the 20-point position bonus, and the
length bonus only when something already matched and the content
exceeds 50 characters. -/
def specScore (beforeCursor afterCursor contextText : List Char)
    (sectionMap : List SectionMap) (cursorPos : Nat) (sec : Sec) : Int :=
  let base : Int :=
    1000 * contextWordMatches beforeCursor sec +
    1000 * contextWordMatches afterCursor sec +
    5000 * phraseMatchCount contextText sec +
    positionBonus sectionMap cursorPos sec
  if 0 < base ∧ 50 < sec.content.length then
    base + min (sec.content.length : Int) 1000
  else base

/-- The scoring formula exactly as claim C3 words it, with context
words counted once per DISTINCT word rather than per occurrence.
Used only to state the counterexample to C3. -/
def distinctWordMatches (window : List Char) (sec : Sec) : Nat :=
  (((splitWS (toLowerList window)).filter (fun w => 2 < w.length)).dedup).countP
    (fun w => (splitWS (toLowerList sec.content)).contains w)

/-- The per-section score under the literal reading of claim C3
(distinct context words). -/
def distinctScore (beforeCursor afterCursor contextText : List Char)
    (sectionMap : List SectionMap) (cursorPos : Nat) (sec : Sec) : Int :=
  let base : Int :=
    1000 * distinctWordMatches beforeCursor sec +
    1000 * distinctWordMatches afterCursor sec +
    5000 * phraseMatchCount contextText sec +
    positionBonus sectionMap cursorPos sec
  if 0 < base ∧ 50 < sec.content.length then
    base + min (sec.content.length : Int) 1000
  else base

/-- The consequence of claim C3, as stated, at one input: when the
context window is rich enough and some section reaches the 15-point
bar under the distinct-word scoring, the resolver must return a
maximum-scoring section together with that score. -/
def C3ClaimAt (sections : List Sec) (sectionMap : List SectionMap)
    (content : List Char) (cursorPos : Nat) : Prop :=
  let beforeCursor := jsSubstring content (cursorPos - 100) cursorPos
  let afterCursor :=
    jsSubstring content cursorPos (min content.length (cursorPos + 100))
  let contextText := beforeCursor ++ afterCursor
  10 ≤ (trimWS contextText).length →
  (∃ sec ∈ sections,
      1500 ≤ distinctScore beforeCursor afterCursor contextText sectionMap
        cursorPos sec) →
  ∃ sec ∈ sections,
    (∀ sec2 ∈ sections,
        distinctScore beforeCursor afterCursor contextText sectionMap
          cursorPos sec2 ≤
        distinctScore beforeCursor afterCursor contextText sectionMap
          cursorPos sec) ∧
    findSectionAtCursor sections sectionMap content cursorPos =
      some (mkContextResult sec
        (distinctScore beforeCursor afterCursor contextText sectionMap
          cursorPos sec))

/-- Well-formedness of a section index: ranges are ordered, and each
entry after the first starts exactly two characters (the separator
width) after the previous entry ends.  Both index builders only ever
produce well-formed maps (proved below), so every stored chapter
index satisfies this. -/
def SMWellFormed (m : List SectionMap) : Prop :=
  (∀ e ∈ m, e.start ≤ e.end_) ∧
  List.Chain' (fun a b => b.start = a.end_ + 2) m

theorem rebuildLoop_length (parts : List (List Char)) :
    ∀ (secs : List Sec) (pos : Nat),
      (rebuildLoop parts secs pos).length = min parts.length secs.length := by
  induction parts with
  | nil => intro secs pos; simp [rebuildLoop]
  | cons p ps ih =>
    intro secs pos
    cases secs with
    | nil => simp [rebuildLoop]
    | cons s ss => simp [rebuildLoop, ih]; omega

theorem rebuildLoop_start_ge (parts : List (List Char)) :
    ∀ (secs : List Sec) (pos : Nat) (e : SectionMap),
      e ∈ rebuildLoop parts secs pos → pos ≤ e.start := by
  induction parts with
  | nil => intro secs pos e he; simp [rebuildLoop] at he
  | cons p ps ih =>
    intro secs pos e he
    cases secs with
    | nil => simp [rebuildLoop] at he
    | cons s ss =>
      simp only [rebuildLoop, List.mem_cons] at he
      rcases he with rfl | he
      · exact le_refl _
      · exact le_trans (by omega) (ih ss (pos + p.length + 2) e he)

theorem rebuildLoop_start_le_end (parts : List (List Char)) :
    ∀ (secs : List Sec) (pos : Nat) (e : SectionMap),
      e ∈ rebuildLoop parts secs pos → e.start ≤ e.end_ := by
  induction parts with
  | nil => intro secs pos e he; simp [rebuildLoop] at he
  | cons p ps ih =>
    intro secs pos e he
    cases secs with
    | nil => simp [rebuildLoop] at he
    | cons s ss =>
      simp only [rebuildLoop, List.mem_cons] at he
      rcases he with rfl | he
      · simp
      · exact ih ss (pos + p.length + 2) e he

theorem rebuildLoop_chain (parts : List (List Char)) :
    ∀ (secs : List Sec) (pos : Nat),
      List.Chain' (fun a b => b.start = a.end_ + 2)
        (rebuildLoop parts secs pos) := by
  induction parts with
  | nil => intro secs pos; simp [rebuildLoop]
  | cons p ps ih =>
    intro secs pos
    cases secs with
    | nil => simp [rebuildLoop]
    | cons s ss =>
      simp only [rebuildLoop]
      rw [List.chain'_cons']
      refine ⟨?_, ih ss (pos + p.length + 2)⟩
      intro b hb
      have hmem : b ∈ rebuildLoop ps ss (pos + p.length + 2) :=
        List.mem_of_mem_head? hb
      cases ps with
      | nil => simp [rebuildLoop] at hmem
      | cons p2 ps2 =>
        cases ss with
        | nil => simp [rebuildLoop] at hmem
        | cons s2 ss2 =>
          simp only [rebuildLoop, List.head?_cons, Option.mem_some_iff] at hb
          subst hb
          simp

theorem rebuildLoop_pairwise (parts : List (List Char)) :
    ∀ (secs : List Sec) (pos : Nat),
      List.Pairwise (fun a b => a.end_ < b.start)
        (rebuildLoop parts secs pos) := by
  induction parts with
  | nil => intro secs pos; simp [rebuildLoop]
  | cons p ps ih =>
    intro secs pos
    cases secs with
    | nil => simp [rebuildLoop]
    | cons s ss =>
      simp only [rebuildLoop]
      refine List.Pairwise.cons ?_ (ih ss (pos + p.length + 2))
      intro b hb
      have := rebuildLoop_start_ge ps ss (pos + p.length + 2) b hb
      simp only
      omega

theorem rebuildLoop_wf (parts : List (List Char)) (secs : List Sec)
    (pos : Nat) : SMWellFormed (rebuildLoop parts secs pos) :=
  ⟨fun e he => rebuildLoop_start_le_end parts secs pos e he,
   rebuildLoop_chain parts secs pos⟩

/-- C10: for every chapter and every current content string, the
rebuilt section index is well-formed: every entry has `start ≤ end`,
entries are strictly ordered by `start` and pairwise non-overlapping
(each entry ends strictly before the next starts), each entry after
the first starts exactly at the previous end plus the separator width
2, and the number of entries is the minimum of the number of
double-newline-separated parts and the number of sections.  (Starts
and ends are naturals, so `0 ≤ start` holds by type.) -/
theorem C10_rebuild_invariants (sections : List Sec) (content : List Char) :
    (∀ e ∈ rebuildSectionMap sections content, e.start ≤ e.end_) ∧
    List.Chain' (fun a b => b.start = a.end_ + 2)
      (rebuildSectionMap sections content) ∧
    List.Pairwise (fun a b => a.start < b.start)
      (rebuildSectionMap sections content) ∧
    List.Pairwise (fun a b => a.end_ < b.start)
      (rebuildSectionMap sections content) ∧
    (rebuildSectionMap sections content).length =
      min (splitNN content).length sections.length := by
  refine ⟨fun e he => rebuildLoop_start_le_end _ _ _ e he,
    rebuildLoop_chain _ _ _, ?_, rebuildLoop_pairwise _ _ _,
    rebuildLoop_length _ _ _⟩
  have hp := rebuildLoop_pairwise (splitNN content) sections 0
  refine hp.imp_of_mem ?_
  intro a b ha hb hab
  have := rebuildLoop_start_le_end (splitNN content) sections 0 a ha
  omega

theorem splitNN_ne_nil : ∀ l : List Char, splitNN l ≠ []
  | [] => by simp [splitNN]
  | [c] => by simp [splitNN]
  | c1 :: c2 :: rest => by
    simp only [splitNN]
    split
    · simp
    · cases h : splitNN (c2 :: rest) with
      | nil => exact absurd h (splitNN_ne_nil (c2 :: rest))
      | cons p ps => simp

theorem splitNN_noNN : ∀ l : List Char, hasNN l = false → splitNN l = [l]
  | [], _ => by simp [splitNN]
  | [c], _ => by simp [splitNN]
  | c1 :: c2 :: rest, h => by
    have hh : ¬(c1 = '\n' ∧ c2 = '\n') ∧ hasNN (c2 :: rest) = false := by
      simpa [hasNN, Decidable.imp_iff_not_or] using h
    simp only [splitNN]
    rw [if_neg hh.1, splitNN_noNN (c2 :: rest) hh.2]

theorem splitNN_append :
    ∀ (p t : List Char), hasNN p = false → p.getLast? ≠ some '\n' →
      splitNN (p ++ '\n' :: '\n' :: t) = p :: splitNN t
  | [], t, _, _ => by
    rw [List.nil_append]
    simp [splitNN]
  | [x], t, _, hl => by
    have hx : x ≠ '\n' := by simpa using hl
    rw [List.cons_append, List.nil_append]
    simp only [splitNN]
    rw [if_neg (by simp [hx])]
    simp [splitNN]
  | x :: y :: p2, t, h, hl => by
    have hh : ¬(x = '\n' ∧ y = '\n') ∧ hasNN (y :: p2) = false := by
      simpa [hasNN, Decidable.imp_iff_not_or] using h
    have hl2 : (y :: p2).getLast? ≠ some '\n' := by
      rwa [List.getLast?_cons_cons] at hl
    have ih := splitNN_append (y :: p2) t hh.2 hl2
    rw [List.cons_append]
    simp only [List.cons_append] at ih
    simp only [splitNN]
    rw [if_neg hh.1]
    simp only [List.append_eq]
    rw [ih]

theorem joinNN_nil : joinNN [] = [] := rfl

theorem joinNN_single (c : List Char) : joinNN [c] = c := by
  simp [joinNN]

theorem joinNN_cons (c d : List Char) (rest : List (List Char)) :
    joinNN (c :: d :: rest) = c ++ '\n' :: '\n' :: joinNN (d :: rest) := by
  simp [joinNN, List.intersperse]

theorem splitNN_joinNN :
    ∀ contents : List (List Char), contents ≠ [] →
      (∀ c ∈ contents, hasNN c = false) →
      (∀ c ∈ contents.dropLast, c.getLast? ≠ some '\n') →
      splitNN (joinNN contents) = contents
  | [], h, _, _ => absurd rfl h
  | [c], _, hnn, _ => by
    rw [joinNN_single, splitNN_noNN c (hnn c (by simp))]
  | c :: d :: rest, _, hnn, hlast => by
    rw [joinNN_cons,
      splitNN_append c (joinNN (d :: rest)) (hnn c (by simp))
        (hlast c (by simp)),
      splitNN_joinNN (d :: rest) (by simp)
        (fun x hx => hnn x (List.mem_cons_of_mem c hx))
        (fun x hx => hlast x (by
          rw [List.dropLast_cons₂]
          exact List.mem_cons_of_mem c hx))]

theorem jsSubstring_at (buf : List Char) (pos : Nat) (p rest : List Char)
    (h : buf.drop pos = p ++ rest) :
    jsSubstring buf pos (pos + p.length) = p := by
  by_cases hp : pos ≤ buf.length
  · have hlen : buf.length - pos = p.length + rest.length := by
      have h2 := congrArg List.length h
      simp only [List.length_drop, List.length_append] at h2
      omega
    have hb : pos + p.length ≤ buf.length := by omega
    unfold jsSubstring
    simp only
    rw [min_eq_left hp, min_eq_left hb, max_eq_right (by omega),
      min_eq_left (by omega), List.drop_take (pos + p.length) pos buf,
      Nat.add_sub_cancel_left, h, List.take_left]
  · have hnil : buf.drop pos = [] :=
      List.drop_eq_nil_of_le (by omega)
    have hpnil : p = [] := by
      rw [hnil] at h
      exact (List.append_eq_nil.mp h.symm).1
    subst hpnil
    unfold jsSubstring
    simp only [List.length_nil, Nat.add_zero]
    have hmin : min pos buf.length = buf.length := min_eq_right (by omega)
    rw [hmin, max_self, min_self, List.take_length, List.drop_length]

theorem rebuildLoop_slices :
    ∀ (parts : List (List Char)) (secs : List Sec) (pos : Nat)
      (buf : List Char),
      parts.length = secs.length → buf.drop pos = joinNN parts →
      (rebuildLoop parts secs pos).map
        (fun e => jsSubstring buf e.start e.end_) = parts := by
  intro parts
  induction parts with
  | nil =>
    intro secs pos buf hlen _
    cases secs with
    | nil => simp [rebuildLoop]
    | cons s ss => simp at hlen
  | cons p ps ih =>
    intro secs pos buf hlen hdrop
    cases secs with
    | nil => simp at hlen
    | cons s ss =>
      cases ps with
      | nil =>
        have hss : ss = [] := by
          simp only [List.length_cons, List.length_nil] at hlen
          exact List.length_eq_zero.mp (by omega)
        subst hss
        rw [joinNN_single] at hdrop
        have hslice := jsSubstring_at buf pos p []
          (by rw [hdrop, List.append_nil])
        simp [rebuildLoop, hslice]
      | cons p2 ps2 =>
        cases ss with
        | nil => simp at hlen
        | cons s2 ss2 =>
          rw [joinNN_cons] at hdrop
          have hslice := jsSubstring_at buf pos p
            ('\n' :: '\n' :: joinNN (p2 :: ps2)) hdrop
          have hdrop2 : buf.drop (pos + p.length + 2) = joinNN (p2 :: ps2) := by
            have e1 : pos + p.length + 2 = pos + (p.length + 2) := by omega
            rw [e1, ← List.drop_drop, hdrop, List.drop_append 2]
            rfl
          have hrec := ih (s2 :: ss2) (pos + p.length + 2) buf
            (by simpa using hlen) hdrop2
          have hstep : rebuildLoop (p :: p2 :: ps2) (s :: s2 :: ss2) pos =
              ⟨pos, pos + p.length, s.page_number, s.section_id⟩ ::
                rebuildLoop (p2 :: ps2) (s2 :: ss2) (pos + p.length + 2) := rfl
          rw [hstep, List.map_cons, hrec]
          simpa using hslice

theorem rebuildLoop_map_ids :
    ∀ (parts : List (List Char)) (secs : List Sec) (pos : Nat),
      parts.length = secs.length →
      (rebuildLoop parts secs pos).map SectionMap.sectionId =
          secs.map Sec.section_id ∧
      (rebuildLoop parts secs pos).map SectionMap.pageNumber =
          secs.map Sec.page_number := by
  intro parts
  induction parts with
  | nil =>
    intro secs pos hlen
    cases secs with
    | nil => simp [rebuildLoop]
    | cons s ss => simp at hlen
  | cons p ps ih =>
    intro secs pos hlen
    cases secs with
    | nil => simp at hlen
    | cons s ss =>
      have := ih ss (pos + p.length + 2) (by simpa using hlen)
      simp [rebuildLoop, this.1, this.2]

/-- C1 counterexample: the claim as stated fails when a section
content itself contains the two-newline separator.  For the single
section with content "x\n\ny" the buffer equals the join of the
section contents, yet slicing the rebuilt index and re-joining yields
"x", not the original buffer: the split of the buffer produces two
parts for one section, and the positional zip keeps only the first. -/
theorem C1_counterexample :
    (joinNN (List.map Sec.content
        [⟨"s1", ['x', '\n', '\n', 'y'], "text", 1, none, none⟩]) =
      ['x', '\n', '\n', 'y']) ∧
    joinNN ((rebuildSectionMap
        [⟨"s1", ['x', '\n', '\n', 'y'], "text", 1, none, none⟩]
        ['x', '\n', '\n', 'y']).map
      (fun e => jsSubstring ['x', '\n', '\n', 'y'] e.start e.end_)) ≠
      ['x', '\n', '\n', 'y'] := by
  constructor
  · rfl
  · decide

/-- C1 (amended): for every chapter whose content buffer equals the
join of its sections' contents with the two-newline separator,
PROVIDED no section content contains the two-newline separator and no
section content before the last ends with a newline (otherwise the
separator split of the buffer does not recover the section contents,
see the counterexample), rebuilding the section index yields exactly
one entry per section, in section order, each carrying that section's
page_number and section_id, and slicing the buffer at each entry's
[start, end) range and re-joining the slices with the separator
reproduces the original buffer. -/
theorem C1_rebuild_roundtrip (sections : List Sec) (buffer : List Char)
    (hbuf : buffer = joinNN (sections.map Sec.content))
    (hnn : ∀ s ∈ sections, hasNN s.content = false)
    (hlast : ∀ c ∈ (sections.map Sec.content).dropLast,
      c.getLast? ≠ some '\n') :
    (rebuildSectionMap sections buffer).length = sections.length ∧
    (rebuildSectionMap sections buffer).map SectionMap.sectionId =
      sections.map Sec.section_id ∧
    (rebuildSectionMap sections buffer).map SectionMap.pageNumber =
      sections.map Sec.page_number ∧
    joinNN ((rebuildSectionMap sections buffer).map
      (fun e => jsSubstring buffer e.start e.end_)) = buffer := by
  by_cases hs : sections = []
  · subst hs
    subst hbuf
    refine ⟨rfl, rfl, rfl, rfl⟩
  · have hsplit : splitNN buffer = sections.map Sec.content := by
      rw [hbuf]
      exact splitNN_joinNN (sections.map Sec.content)
        (by simpa using hs)
        (by
          intro c hc
          obtain ⟨sec, hsec, rfl⟩ := List.mem_map.mp hc
          exact hnn sec hsec)
        hlast
    have hlen : (sections.map Sec.content).length = sections.length :=
      List.length_map _ _
    unfold rebuildSectionMap
    rw [hsplit]
    have hids := rebuildLoop_map_ids (sections.map Sec.content) sections 0 hlen
    refine ⟨?_, hids.1, hids.2, ?_⟩
    · rw [rebuildLoop_length]
      simp
    · rw [rebuildLoop_slices (sections.map Sec.content) sections 0 buffer hlen
        (by rw [List.drop_zero, hbuf]), hbuf]

/-- Witness for C1: two plain sections round-trip exactly. -/
theorem C1_rebuild_roundtrip_witness :
    (rebuildSectionMap
        [⟨"s1", ['a', 'b'], "text", 1, none, none⟩,
         ⟨"s2", ['c', 'd'], "text", 2, none, none⟩]
        ['a', 'b', '\n', '\n', 'c', 'd']).length = 2 ∧
    (rebuildSectionMap
        [⟨"s1", ['a', 'b'], "text", 1, none, none⟩,
         ⟨"s2", ['c', 'd'], "text", 2, none, none⟩]
        ['a', 'b', '\n', '\n', 'c', 'd']).map SectionMap.sectionId =
      ["s1", "s2"] ∧
    (rebuildSectionMap
        [⟨"s1", ['a', 'b'], "text", 1, none, none⟩,
         ⟨"s2", ['c', 'd'], "text", 2, none, none⟩]
        ['a', 'b', '\n', '\n', 'c', 'd']).map SectionMap.pageNumber =
      [1, 2] ∧
    joinNN ((rebuildSectionMap
        [⟨"s1", ['a', 'b'], "text", 1, none, none⟩,
         ⟨"s2", ['c', 'd'], "text", 2, none, none⟩]
        ['a', 'b', '\n', '\n', 'c', 'd']).map
      (fun e => jsSubstring ['a', 'b', '\n', '\n', 'c', 'd']
        e.start e.end_)) = ['a', 'b', '\n', '\n', 'c', 'd'] :=
  C1_rebuild_roundtrip
    [⟨"s1", ['a', 'b'], "text", 1, none, none⟩,
     ⟨"s2", ['c', 'd'], "text", 2, none, none⟩]
    ['a', 'b', '\n', '\n', 'c', 'd'] (by decide) (by decide) (by decide)

theorem wf_tail {h : SectionMap} {t : List SectionMap}
    (hwf : SMWellFormed (h :: t)) : SMWellFormed t :=
  ⟨fun e he => hwf.1 e (List.mem_cons_of_mem h he),
   (List.chain'_cons'.mp hwf.2).2⟩

theorem wf_suffix : ∀ (l1 rest : List SectionMap),
    SMWellFormed (l1 ++ rest) → SMWellFormed rest
  | [], _, hwf => hwf
  | x :: l1, rest, hwf => wf_suffix l1 rest (wf_tail hwf)

theorem wf_head_le {h : SectionMap} {t : List SectionMap}
    (hwf : SMWellFormed (h :: t)) : ∀ e ∈ t, h.end_ + 2 ≤ e.start := by
  induction t generalizing h with
  | nil => intro e he; simp at he
  | cons e t2 ih =>
    intro e2 he2
    have hrel : e.start = h.end_ + 2 := (List.chain'_cons.mp hwf.2).1
    rcases List.mem_cons.mp he2 with rfl | he2
    · omega
    · have h1 : e.start ≤ e.end_ := hwf.1 e (by simp)
      have h2 := ih (wf_tail hwf) e2 he2
      omega

theorem wf_before_after : ∀ (l1 : List SectionMap) (e2 : SectionMap)
    (l2 : List SectionMap), SMWellFormed (l1 ++ e2 :: l2) →
    ∀ e1 ∈ l1, e1.end_ + 2 ≤ e2.start
  | [], _, _, _ => by intro e1 he1; simp at he1
  | x :: l1, e2, l2, hwf => by
    intro e1 he1
    rcases List.mem_cons.mp he1 with rfl | he1
    · exact wf_head_le hwf e2 (by simp)
    · exact wf_before_after l1 e2 l2 (wf_tail hwf) e1 he1

theorem findContaining_some : ∀ (m : List SectionMap) (pos : Nat)
    (e : SectionMap), findContaining m pos = some e →
    e ∈ m ∧ e.start ≤ pos ∧ pos ≤ e.end_
  | [], _, _ => by simp [findContaining]
  | s :: rest, pos, e => by
    simp only [findContaining]
    split
    · rintro h
      injection h with h
      subst h
      exact ⟨by simp, by assumption⟩
    · intro h
      have := findContaining_some rest pos e h
      exact ⟨List.mem_cons_of_mem s this.1, this.2⟩

theorem findContaining_none_iff : ∀ (m : List SectionMap) (pos : Nat),
    findContaining m pos = none ↔
      ∀ e ∈ m, ¬(e.start ≤ pos ∧ pos ≤ e.end_)
  | [], pos => by simp [findContaining]
  | s :: rest, pos => by
    simp only [findContaining]
    split
    · rename_i hc
      constructor
      · intro h
        exact absurd h (by simp)
      · intro hall
        exact absurd hc (hall s (by simp))
    · rename_i hc
      rw [findContaining_none_iff rest pos]
      constructor
      · intro hall e he
        rcases List.mem_cons.mp he with rfl | he
        · exact hc
        · exact hall e he
      · intro hall e he
        exact hall e (List.mem_cons_of_mem s he)

theorem findContaining_of_mem : ∀ (m : List SectionMap) (pos : Nat)
    (e : SectionMap), SMWellFormed m → e ∈ m → e.start ≤ pos →
    pos ≤ e.end_ → findContaining m pos = some e
  | [], _, _, _, he, _, _ => by simp at he
  | s :: rest, pos, e, hwf, he, h1, h2 => by
    rcases List.mem_cons.mp he with rfl | he
    · simp only [findContaining]
      rw [if_pos ⟨h1, h2⟩]
    · have hgap := wf_head_le hwf e he
      have hnot : ¬(s.start ≤ pos ∧ pos ≤ s.end_) := by
        intro hcon
        omega
      simp only [findContaining]
      rw [if_neg hnot]
      exact findContaining_of_mem rest pos e (wf_tail hwf) he h1 h2

theorem findBetween_mem : ∀ (m : List SectionMap) (pos : Nat)
    (e : SectionMap), findBetween m pos = some e → e ∈ m
  | [], _, _ => by simp [findBetween]
  | [a], _, _ => by simp [findBetween]
  | a :: b :: rest, pos, e => by
    simp only [findBetween]
    split
    · intro h
      injection h with h
      subst h
      split
      · simp
      · simp
    · intro h
      exact List.mem_cons_of_mem a (findBetween_mem (b :: rest) pos e h)

theorem findBetween_spec : ∀ (l1 : List SectionMap) (a b : SectionMap)
    (l2 : List SectionMap) (pos : Nat),
    SMWellFormed (l1 ++ a :: b :: l2) → a.end_ < pos → pos < b.start →
    findBetween (l1 ++ a :: b :: l2) pos =
      some (if pos - a.end_ ≤ b.start - pos then a else b)
  | [], a, b, l2, pos, hwf, h1, h2 => by
    simp only [List.nil_append, findBetween]
    rw [if_pos ⟨h1, h2⟩]
  | x :: l1, a, b, l2, pos, hwf, h1, h2 => by
    have hsa : a.start ≤ a.end_ := hwf.1 a (by simp)
    have hrec := findBetween_spec l1 a b l2 pos (wf_tail hwf) h1 h2
    cases l1 with
    | nil =>
      simp only [List.nil_append] at hrec ⊢
      simp only [List.cons_append, List.nil_append, findBetween]
      rw [if_neg (by omega)]
      exact hrec
    | cons y l1b =>
      have hya : y.end_ + 2 ≤ a.start := by
        have : SMWellFormed (y :: (l1b ++ a :: b :: l2)) := wf_tail hwf
        exact wf_head_le this a (by simp)
      have hys : y.start ≤ y.end_ := hwf.1 y (by simp)
      simp only [List.cons_append, findBetween]
      rw [if_neg (by omega)]
      simpa using hrec

theorem findBetween_none : ∀ (m : List SectionMap) (pos : Nat),
    (∀ (l1 : List SectionMap) (x y : SectionMap) (l2 : List SectionMap),
      m = l1 ++ x :: y :: l2 → ¬(x.end_ < pos ∧ pos < y.start)) →
    findBetween m pos = none
  | [], _, _ => rfl
  | [a], _, _ => rfl
  | a :: b :: rest, pos, hall => by
    simp only [findBetween]
    rw [if_neg (hall [] a b rest rfl)]
    exact findBetween_none (b :: rest) pos
      (fun l1 x y l2 heq => hall (a :: l1) x y l2 (by rw [heq]; rfl))

/-- C2: for every chapter whose (well-formed, as produced by the index
builders) section index is non-empty, `findSectionByPosition` returns
a non-null result; it returns the index entry containing the cursor
(inclusive at both ends) with score 10; otherwise, for an offset
strictly between two consecutive entries, the numerically closer
boundary entry (ties to the earlier entry) with score 5; otherwise the
last entry with score 5.  On an empty index it returns null, and with
a non-empty index it never does, so null is returned exactly for the
empty index. -/
theorem C2_findSectionByPosition_spec (m : List SectionMap) (pos : Nat)
    (hwf : SMWellFormed m) (hne : m ≠ []) :
    (∃ r, findSectionByPosition m pos = some r) ∧
    (∀ e ∈ m, e.start ≤ pos → pos ≤ e.end_ →
      findSectionByPosition m pos = some (toResult e 1000)) ∧
    (∀ (l1 : List SectionMap) (a b : SectionMap) (l2 : List SectionMap),
      m = l1 ++ a :: b :: l2 → a.end_ < pos → pos < b.start →
      findSectionByPosition m pos =
        some (toResult (if pos - a.end_ ≤ b.start - pos then a else b) 500)) ∧
    ((∀ e ∈ m, ¬(e.start ≤ pos ∧ pos ≤ e.end_)) →
      (∀ (l1 : List SectionMap) (x y : SectionMap) (l2 : List SectionMap),
        m = l1 ++ x :: y :: l2 → ¬(x.end_ < pos ∧ pos < y.start)) →
      ∃ last, m.getLast? = some last ∧
        findSectionByPosition m pos = some (toResult last 500)) ∧
    findSectionByPosition ([] : List SectionMap) pos = none := by
  have hempty : m.isEmpty = false := by
    cases m with
    | nil => exact absurd rfl hne
    | cons a t => rfl
  refine ⟨?_, ?_, ?_, ?_, rfl⟩
  · unfold findSectionByPosition
    rw [hempty]
    simp only [Bool.false_eq_true, if_false]
    cases hc : findContaining m pos with
    | some s => exact ⟨toResult s 1000, rfl⟩
    | none =>
      cases hb : findBetween m pos with
      | some s => exact ⟨toResult s 500, rfl⟩
      | none =>
        cases hl : m.getLast? with
        | some s => exact ⟨toResult s 500, rfl⟩
        | none =>
          rw [List.getLast?_eq_getLast m hne] at hl
          exact absurd hl (by simp)
  · intro e he h1 h2
    unfold findSectionByPosition
    rw [hempty]
    simp only [Bool.false_eq_true, if_false]
    rw [findContaining_of_mem m pos e hwf he h1 h2]
  · intro l1 a b l2 heq h1 h2
    subst heq
    have hnone : findContaining (l1 ++ a :: b :: l2) pos = none := by
      rw [findContaining_none_iff]
      intro e he hcon
      rcases List.mem_append.mp he with he1 | he2
      · have := wf_before_after l1 a (b :: l2) hwf e he1
        have hsa : a.start ≤ a.end_ := hwf.1 a (by simp)
        omega
      · rcases List.mem_cons.mp he2 with rfl | he3
        · omega
        · rcases List.mem_cons.mp he3 with rfl | he4
          · omega
          · have hsuf : SMWellFormed (b :: l2) := by
              have := wf_suffix l1 (a :: b :: l2) hwf
              exact wf_tail this
            have := wf_head_le hsuf e he4
            have hsb : b.start ≤ b.end_ := hsuf.1 b (by simp)
            omega
    unfold findSectionByPosition
    rw [hempty]
    simp only [Bool.false_eq_true, if_false]
    rw [hnone, findBetween_spec l1 a b l2 pos hwf h1 h2]
  · intro hnc hnb
    refine ⟨m.getLast hne, List.getLast?_eq_getLast m hne, ?_⟩
    unfold findSectionByPosition
    rw [hempty]
    simp only [Bool.false_eq_true, if_false]
    rw [(findContaining_none_iff m pos).mpr hnc, findBetween_none m pos hnb,
      List.getLast?_eq_getLast m hne]

/-- Witness for C2: a two-entry index with the cursor in the gap. -/
theorem C2_findSectionByPosition_witness :
    findSectionByPosition [⟨0, 2, 1, "a"⟩, ⟨4, 6, 2, "b"⟩] 3 =
      some ⟨0, 2, 1, "a", 500⟩ :=
  ((C2_findSectionByPosition_spec [⟨0, 2, 1, "a"⟩, ⟨4, 6, 2, "b"⟩] 3
      ⟨by decide,
       List.chain'_cons.mpr ⟨by decide, List.chain'_singleton _⟩⟩
      (by decide)).2.2.1 [] ⟨0, 2, 1, "a"⟩ ⟨4, 6, 2, "b"⟩ [] rfl
      (by decide) (by decide)).trans (by decide)

theorem foldl_if_add (q : List Char → Bool) :
    ∀ (phrases : List (List Char)) (s : Int),
      phrases.foldl (fun acc p => if q p then acc + 5000 else acc) s =
        s + 5000 * phrases.countP q
  | [], s => by simp
  | p :: phrases, s => by
    rw [List.foldl_cons, List.countP_cons, foldl_if_add q phrases]
    by_cases hq : q p
    · rw [if_pos hq]
      simp [hq]
      push_cast
      ring
    · rw [if_neg hq]
      simp [hq]

theorem bonus_add (m : List SectionMap) (pos : Nat) (sec : Sec)
    (X : Int) :
    (match m.find? (fun s => s.sectionId == sec.section_id) with
     | some info =>
       if info.start ≤ pos ∧ pos ≤ info.end_ then X + 2000 else X
     | none => X) = X + positionBonus m pos sec := by
  unfold positionBonus
  cases m.find? (fun s => s.sectionId == sec.section_id) with
  | none => simp
  | some info =>
    by_cases h : info.start ≤ pos ∧ pos ≤ info.end_
    · simp [h]
    · simp [h]

theorem sectionScore_eq_specScore (bc ac ct : List Char)
    (m : List SectionMap) (pos : Nat) (sec : Sec) :
    sectionScore bc ac ct m pos sec = specScore bc ac ct m pos sec := by
  unfold sectionScore specScore
  simp only
  rw [foldl_if_add, bonus_add]
  have hbase :
      ((((splitWS (toLowerList bc)).filter (fun w => 2 < w.length)).filter
          (fun w => (splitWS (toLowerList sec.content)).contains w)).length +
        (((splitWS (toLowerList ac)).filter (fun w => 2 < w.length)).filter
          (fun w => (splitWS (toLowerList sec.content)).contains w)).length :
        ℕ) * (1000 : Int) +
        5000 * ((matchPhrases (toLowerList ct)).countP
          (fun phrase => jsIncludes (toLowerList sec.content) phrase)) =
      1000 * contextWordMatches bc sec + 1000 * contextWordMatches ac sec +
        5000 * phraseMatchCount ct sec := by
    unfold contextWordMatches phraseMatchCount
    simp only [List.countP_eq_length_filter]
    push_cast
    ring
  rw [hbase]

theorem findBestLoop_none_eq (bc ac ct : List Char) (m : List SectionMap)
    (pos : Nat) :
    ∀ (l : List Sec) (acc : Option LocResult × Int),
      (findBestLoop bc ac ct m pos l acc).1 = none →
      findBestLoop bc ac ct m pos l acc = acc := by
  intro l
  induction l with
  | nil => intro acc _; rfl
  | cons sec rest ih =>
    intro acc h
    by_cases hemp : sec.content.isEmpty = true
    · simp only [findBestLoop, if_pos hemp] at h ⊢
      exact ih acc h
    · by_cases hlt : acc.2 < sectionScore bc ac ct m pos sec
      · simp only [findBestLoop, if_neg hemp, if_pos hlt] at h ⊢
        have heq := ih _ h
        rw [heq] at h
        simp at h
      · simp only [findBestLoop, if_neg hemp, if_neg hlt] at h ⊢
        exact ih acc h

theorem findBestLoop_score_mono (bc ac ct : List Char) (m : List SectionMap)
    (pos : Nat) :
    ∀ (l : List Sec) (acc : Option LocResult × Int),
      acc.2 ≤ (findBestLoop bc ac ct m pos l acc).2 := by
  intro l
  induction l with
  | nil => intro acc; exact le_refl _
  | cons sec rest ih =>
    intro acc
    by_cases hemp : sec.content.isEmpty = true
    · simp only [findBestLoop, if_pos hemp]
      exact ih acc
    · by_cases hlt : acc.2 < sectionScore bc ac ct m pos sec
      · simp only [findBestLoop, if_neg hemp, if_pos hlt]
        exact le_trans (le_of_lt hlt) (ih _)
      · simp only [findBestLoop, if_neg hemp, if_neg hlt]
        exact ih acc

theorem findBestLoop_ge (bc ac ct : List Char) (m : List SectionMap)
    (pos : Nat) :
    ∀ (l : List Sec) (acc : Option LocResult × Int) (sec2 : Sec),
      sec2 ∈ l → sec2.content ≠ [] →
      sectionScore bc ac ct m pos sec2 ≤
        (findBestLoop bc ac ct m pos l acc).2 := by
  intro l
  induction l with
  | nil => intro acc sec2 h2 _; simp at h2
  | cons sec rest ih =>
    intro acc sec2 h2 hne
    rcases List.mem_cons.mp h2 with rfl | h2
    · by_cases hemp : sec2.content.isEmpty = true
      · exact absurd (List.isEmpty_iff.mp hemp) hne
      · by_cases hlt : acc.2 < sectionScore bc ac ct m pos sec2
        · simp only [findBestLoop, if_neg hemp, if_pos hlt]
          simpa using findBestLoop_score_mono bc ac ct m pos rest
            (some (mkContextResult sec2 (sectionScore bc ac ct m pos sec2)),
              sectionScore bc ac ct m pos sec2)
        · simp only [findBestLoop, if_neg hemp, if_neg hlt]
          exact le_trans (not_lt.mp hlt)
            (findBestLoop_score_mono bc ac ct m pos rest acc)
    · by_cases hemp : sec.content.isEmpty = true
      · simp only [findBestLoop, if_pos hemp]
        exact ih acc sec2 h2 hne
      · by_cases hlt : acc.2 < sectionScore bc ac ct m pos sec
        · simp only [findBestLoop, if_neg hemp, if_pos hlt]
          exact ih _ sec2 h2 hne
        · simp only [findBestLoop, if_neg hemp, if_neg hlt]
          exact ih acc sec2 h2 hne

theorem findBestLoop_some (bc ac ct : List Char) (m : List SectionMap)
    (pos : Nat) :
    ∀ (l : List Sec) (acc : Option LocResult × Int) (r : LocResult),
      (findBestLoop bc ac ct m pos l acc).1 = some r →
      (acc.1 = some r ∧ (findBestLoop bc ac ct m pos l acc).2 = acc.2) ∨
      (∃ sec ∈ l, sec.content ≠ [] ∧
        r = mkContextResult sec (sectionScore bc ac ct m pos sec) ∧
        (findBestLoop bc ac ct m pos l acc).2 =
          sectionScore bc ac ct m pos sec) := by
  intro l
  induction l with
  | nil =>
    intro acc r h
    exact Or.inl ⟨h, rfl⟩
  | cons sec rest ih =>
    intro acc r h
    by_cases hemp : sec.content.isEmpty = true
    · simp only [findBestLoop, if_pos hemp] at h ⊢
      rcases ih acc r h with h1 | ⟨sec2, hm, hr⟩
      · exact Or.inl h1
      · exact Or.inr ⟨sec2, List.mem_cons_of_mem sec hm, hr⟩
    · by_cases hlt : acc.2 < sectionScore bc ac ct m pos sec
      · simp only [findBestLoop, if_neg hemp, if_pos hlt] at h ⊢
        rcases ih _ r h with ⟨h1, h2⟩ | ⟨sec2, hm, hr⟩
        · simp only [Option.some.injEq] at h1
          subst h1
          refine Or.inr ⟨sec, by simp, ?_, rfl, by simpa using h2⟩
          intro hc
          rw [List.isEmpty_iff] at hemp
          exact hemp hc
        · exact Or.inr ⟨sec2, List.mem_cons_of_mem sec hm, hr⟩
      · simp only [findBestLoop, if_neg hemp, if_neg hlt] at h ⊢
        rcases ih acc r h with h1 | ⟨sec2, hm, hr⟩
        · exact Or.inl h1
        · exact Or.inr ⟨sec2, List.mem_cons_of_mem sec hm, hr⟩

theorem findSectionByPosition_wf (m : List SectionMap) (pos : Nat)
    (r : LocResult) (hwf1 : ∀ e ∈ m, e.start ≤ e.end_) :
    findSectionByPosition m pos = some r → r.start ≤ r.end_ := by
  unfold findSectionByPosition
  by_cases hemp : m.isEmpty = true
  · rw [if_pos hemp]
    intro h
    exact absurd h (by simp)
  · rw [if_neg hemp]
    cases hc : findContaining m pos with
    | some s =>
      intro h
      injection h with h
      subst h
      exact hwf1 s (findContaining_some m pos s hc).1
    | none =>
      cases hb : findBetween m pos with
      | some s =>
        intro h
        injection h with h
        subst h
        exact hwf1 s (findBetween_mem m pos s hb)
      | none =>
        cases hl : m.getLast? with
        | some s =>
          intro h
          injection h with h
          subst h
          exact hwf1 s (List.mem_of_mem_getLast? hl)
        | none =>
          intro h
          exact absurd h (by simp)

/-- C3 (amended): when the trimmed 100-characters-each-side context
window around the cursor holds at least 10 characters,
`findSectionAtCursor` scores every section with non-empty content as:
10 points per occurrence of a context word of length above 2
(case-insensitive) that also appears among the section's
whitespace-split words, counted separately over the before-cursor and
after-cursor windows; 50 points per 3-to-5-consecutive-word phrase
greedily extracted left to right (non-overlapping) from the combined
context and contained verbatim (case-insensitive) in the section's
text; a 20-point bonus when the cursor offset falls within that
section's current index range; plus a length bonus of
min(content length / 100, 10) only when the section already scored
above 0 and its content exceeds 50 characters.  Sections with empty
content are skipped.  If some section reaches 15 points the resolver
returns a maximum-scoring section (the first such) with its score;
if every section stays below 15 points (in particular when none
scores above 0) it returns the position-lookup result instead. -/
theorem C3_context_scoring (sections : List Sec) (m : List SectionMap)
    (content : List Char) (pos : Nat) (bc ac ct : List Char)
    (hbc : bc = jsSubstring content (pos - 100) pos)
    (hac : ac = jsSubstring content pos (min content.length (pos + 100)))
    (hct : ct = bc ++ ac)
    (hne : content ≠ [])
    (hctx : 10 ≤ (trimWS ct).length) :
    ((∃ sec ∈ sections, sec.content ≠ [] ∧
        1500 ≤ specScore bc ac ct m pos sec) →
      ∃ sec ∈ sections, sec.content ≠ [] ∧
        findSectionAtCursor sections m content pos =
          some (mkContextResult sec (specScore bc ac ct m pos sec)) ∧
        1500 ≤ specScore bc ac ct m pos sec ∧
        ∀ sec2 ∈ sections, sec2.content ≠ [] →
          specScore bc ac ct m pos sec2 ≤ specScore bc ac ct m pos sec) ∧
    ((∀ sec ∈ sections, sec.content ≠ [] →
        specScore bc ac ct m pos sec < 1500) →
      findSectionAtCursor sections m content pos =
        findSectionByPosition m pos) := by
  have hemp : content.isEmpty = false := by
    cases content with
    | nil => exact absurd rfl hne
    | cons a t => rfl
  subst hct
  subst hac
  subst hbc
  unfold findSectionAtCursor
  rw [hemp]
  simp only [Bool.false_eq_true, if_false]
  rw [if_neg (not_lt.mpr hctx)]
  set bc := jsSubstring content (pos - 100) pos with hbc
  set ac := jsSubstring content pos (min content.length (pos + 100)) with hac
  set best := findBestLoop bc ac (bc ++ ac) m pos sections (none, 0) with hbest
  constructor
  · rintro ⟨sec0, hmem0, hne0, hs0⟩
    have hge0 : sectionScore bc ac (bc ++ ac) m pos sec0 ≤ best.2 := by
      rw [hbest]
      exact findBestLoop_ge bc ac (bc ++ ac) m pos sections (none, 0) sec0
        hmem0 hne0
    rw [sectionScore_eq_specScore] at hge0
    have hb15 : (1500 : Int) ≤ best.2 := le_trans hs0 hge0
    cases hr : best.1 with
    | none =>
      have heq0 := findBestLoop_none_eq bc ac (bc ++ ac) m pos sections
        (none, 0) (by rw [← hbest]; exact hr)
      have hz : best.2 = 0 := by rw [hbest, heq0]
      rw [hz] at hb15
      norm_num at hb15
    | some r =>
      rcases findBestLoop_some bc ac (bc ++ ac) m pos sections (none, 0) r
        (by rw [← hbest]; exact hr) with ⟨h1, _⟩ | ⟨sec, hmem, hne2, hreq, hsc⟩
      · exact absurd h1 (by simp)
      · rw [← hbest] at hsc
        refine ⟨sec, hmem, hne2, ?_, ?_, ?_⟩
        · show (if best.2 < 1500 then findSectionByPosition m pos
              else some r) = _
          rw [if_neg (not_lt.mpr hb15)]
          rw [hreq, sectionScore_eq_specScore]
        · rw [← sectionScore_eq_specScore, ← hsc]
          exact hb15
        · intro sec2 hmem2 hne22
          rw [← sectionScore_eq_specScore, ← sectionScore_eq_specScore, ← hsc]
          exact findBestLoop_ge bc ac (bc ++ ac) m pos sections (none, 0)
            sec2 hmem2 hne22
  · intro hall
    cases hr : best.1 with
    | none => rfl
    | some r =>
      rcases findBestLoop_some bc ac (bc ++ ac) m pos sections (none, 0) r
        (by rw [← hbest]; exact hr) with ⟨h1, _⟩ | ⟨sec, hmem, hne2, hreq, hsc⟩
      · exact absurd h1 (by simp)
      · have hlt : best.2 < 1500 := by
          rw [hbest, hsc, sectionScore_eq_specScore]
          exact hall sec hmem hne2
        show (if best.2 < 1500 then findSectionByPosition m pos
            else some r) = _
        rw [if_pos hlt]

/-- C3 counterexample: the claim counts each DISTINCT context word
once, but the code counts every occurrence.  With context
"aaa aaa bbb ccc" (cursor at its end), section s1 = "aaa" scores
2×10 = 20 points in the code (two occurrences of "aaa") while
section s2 = "bbb ccc" also scores 20, so the code keeps the earlier
s1; under the claim's distinct-word scoring s1 scores 10 and s2
scores 20 ≥ 15, so the claim demands the maximum-scoring s2.  The
resolver therefore fails the claim at this input (scores are in
centipoints: 2000 = 20 points). -/
theorem C3_counterexample :
    ¬ C3ClaimAt
      [⟨"s1", "aaa".toList, "text", 1, none, none⟩,
       ⟨"s2", "bbb ccc".toList, "text", 2, none, none⟩]
      [] "aaa aaa bbb ccc".toList 15 := by
  unfold C3ClaimAt
  decide

/-- Witness for C3: a section matching the whole context wins with its
occurrence-based score (4 word matches and 1 phrase match, 9000
centipoints = 90 points). -/
theorem C3_context_scoring_witness :
    ∃ sec ∈ [(⟨"s1", "hello world from here".toList, "text", 1, none,
        none⟩ : Sec)], sec.content ≠ [] ∧
      findSectionAtCursor
        [⟨"s1", "hello world from here".toList, "text", 1, none, none⟩]
        [] "hello world from here".toList 0 =
        some (mkContextResult sec
          (specScore (jsSubstring "hello world from here".toList (0 - 100) 0)
            (jsSubstring "hello world from here".toList 0
              (min "hello world from here".toList.length (0 + 100)))
            (jsSubstring "hello world from here".toList (0 - 100) 0 ++
              jsSubstring "hello world from here".toList 0
                (min "hello world from here".toList.length (0 + 100)))
            [] 0 sec)) ∧
      1500 ≤ specScore
          (jsSubstring "hello world from here".toList (0 - 100) 0)
          (jsSubstring "hello world from here".toList 0
            (min "hello world from here".toList.length (0 + 100)))
          (jsSubstring "hello world from here".toList (0 - 100) 0 ++
            jsSubstring "hello world from here".toList 0
              (min "hello world from here".toList.length (0 + 100)))
          [] 0 sec ∧
      ∀ sec2 ∈ [(⟨"s1", "hello world from here".toList, "text", 1, none,
          none⟩ : Sec)], sec2.content ≠ [] →
        specScore (jsSubstring "hello world from here".toList (0 - 100) 0)
          (jsSubstring "hello world from here".toList 0
            (min "hello world from here".toList.length (0 + 100)))
          (jsSubstring "hello world from here".toList (0 - 100) 0 ++
            jsSubstring "hello world from here".toList 0
              (min "hello world from here".toList.length (0 + 100)))
          [] 0 sec2 ≤
        specScore (jsSubstring "hello world from here".toList (0 - 100) 0)
          (jsSubstring "hello world from here".toList 0
            (min "hello world from here".toList.length (0 + 100)))
          (jsSubstring "hello world from here".toList (0 - 100) 0 ++
            jsSubstring "hello world from here".toList 0
              (min "hello world from here".toList.length (0 + 100)))
          [] 0 sec :=
  (C3_context_scoring
    [⟨"s1", "hello world from here".toList, "text", 1, none, none⟩]
    [] "hello world from here".toList 0 _ _ _ rfl rfl rfl (by decide)
    (by decide)).1 (by decide)

/-- C4 counterexample: at cursor offset 0 in a non-empty indexed
chapter whose opening text gives a rich context window, the resolver
returns the context-similarity result (11000 centipoints = 110
points), not the first index entry with score 10 (1000 centipoints)
that the claim demands. -/
theorem C4_counterexample :
    ("hello world from here".toList ≠ ([] : List Char)) ∧
    ([(⟨0, 21, 1, "s1"⟩ : SectionMap)] ≠ ([] : List SectionMap)) ∧
    findSectionAtCursor
      [⟨"s1", "hello world from here".toList, "text", 1, none, none⟩]
      [⟨0, 21, 1, "s1"⟩] "hello world from here".toList 0 ≠
      some (toResult ⟨0, 21, 1, "s1"⟩ 1000) ∧
    findSectionAtCursor
      [⟨"s1", "hello world from here".toList, "text", 1, none, none⟩]
      [⟨0, 21, 1, "s1"⟩] "hello world from here".toList 0 =
      some ⟨0, 21, 1, "s1", 11000⟩ := by
  refine ⟨by decide, by decide, by decide, by decide⟩

/-- C4 (amended): the location resolver never returns a result whose
start exceeds its end (for any index whose entries satisfy
start ≤ end, as all builder-produced indexes do), and for a cursor at
offset 0 in a chapter with a non-empty content buffer and a non-empty
index whose first entry starts at 0, it returns the first index entry
with score 10 (1000 centipoints) PROVIDED the trimmed context window
around offset 0 holds fewer than 10 characters — with a richer
context the context-similarity path takes precedence (see the
counterexample). -/
theorem C4_resolver (sections : List Sec) (m : List SectionMap)
    (content : List Char) (pos : Nat)
    (hwf1 : ∀ e ∈ m, e.start ≤ e.end_) :
    (∀ r, findSectionAtCursor sections m content pos = some r →
      r.start ≤ r.end_) ∧
    (∀ e0, content ≠ [] → m.head? = some e0 → e0.start = 0 →
      (trimWS (jsSubstring content (0 - 100) 0 ++
        jsSubstring content 0 (min content.length (0 + 100)))).length < 10 →
      findSectionAtCursor sections m content 0 = some (toResult e0 1000)) := by
  constructor
  · intro r
    simp only [findSectionAtCursor]
    split
    · intro h
      exact absurd h (by simp)
    · split
      · exact findSectionByPosition_wf m pos r hwf1
      · split
        · exact findSectionByPosition_wf m pos r hwf1
        · rename_i r0 hb
          split
          · exact findSectionByPosition_wf m pos r hwf1
          · intro h
            injection h with h
            subst h
            rcases findBestLoop_some _ _ _ m pos sections (none, 0) r0 hb with
              ⟨h1, _⟩ | ⟨sec, _, _, hreq, _⟩
            · exact absurd h1 (by simp)
            · rw [hreq]
              exact Nat.zero_le _
  · intro e0 hne hhead hstart hsmall
    have hemp : content.isEmpty = false := by
      cases content with
      | nil => exact absurd rfl hne
      | cons a t => rfl
    unfold findSectionAtCursor
    rw [hemp]
    simp only [Bool.false_eq_true, if_false]
    rw [if_pos hsmall]
    cases m with
    | nil => exact absurd hhead (by simp)
    | cons a t =>
      have ha : a = e0 := by
        simpa using hhead
      subst ha
      unfold findSectionByPosition
      simp only [List.isEmpty_cons, Bool.false_eq_true, if_false]
      simp only [findContaining]
      rw [if_pos ⟨by omega, Nat.zero_le _⟩]

/-- Witness for C4: a short buffer (context below 10 characters after
trimming) resolves cursor 0 to the first index entry with score 10
(1000 centipoints); the same input also exercises the start ≤ end
invariant. -/
theorem C4_resolver_witness :
    findSectionAtCursor [⟨"s1", "hi there".toList, "text", 2, none, none⟩]
      [⟨0, 8, 2, "s1"⟩] "hi there".toList 0 =
      some (toResult ⟨0, 8, 2, "s1"⟩ 1000) :=
  (C4_resolver [⟨"s1", "hi there".toList, "text", 2, none, none⟩]
    [⟨0, 8, 2, "s1"⟩] "hi there".toList 0 (by decide)).2
    ⟨0, 8, 2, "s1"⟩ (by decide) rfl rfl (by decide)

/-- C8: a cursor update changes the viewer page only when a section
was resolved with score at least 15 (1500 centipoints); any
resolution scoring below that — in particular every fast-path position
match (score 10 or 5) — leaves the current page unchanged. -/
theorem C8_page_update (sections : List Sec) (m : List SectionMap)
    (content : List Char) (pos : Nat) (currentPage : Int) :
    (handleCursorPageUpdate sections m content pos currentPage =
        currentPage ∨
      ∃ s, findSectionAtCursor sections m content pos = some s ∧
        1500 ≤ s.score ∧
        handleCursorPageUpdate sections m content pos currentPage =
          s.pageNumber) ∧
    (∀ s, findSectionAtCursor sections m content pos = some s →
      s.score < 1500 →
      handleCursorPageUpdate sections m content pos currentPage =
        currentPage) := by
  constructor
  · unfold handleCursorPageUpdate
    split
    · rename_i s hf
      split
      · split
        · rename_i hpage hsc
          exact Or.inr ⟨s, hf, hsc, rfl⟩
        · exact Or.inl rfl
      · exact Or.inl rfl
    · exact Or.inl rfl
  · intro s hf hsc
    unfold handleCursorPageUpdate
    rw [hf]
    show (if s.pageNumber ≠ currentPage then
        if 1500 ≤ s.score then s.pageNumber else currentPage
      else currentPage) = currentPage
    by_cases hpage : s.pageNumber ≠ currentPage
    · rw [if_pos hpage, if_neg (not_le.mpr hsc)]
    · rw [if_neg hpage]

/-- Witness for C8: a fast-path match (score 10, i.e. 1000
centipoints, below the 1500 bar) does not move the viewer off page 7. -/
theorem C8_page_update_witness :
    handleCursorPageUpdate
      [⟨"s1", "hi there".toList, "text", 2, none, none⟩]
      [⟨0, 8, 2, "s1"⟩] "hi there".toList 0 7 = 7 :=
  (C8_page_update [⟨"s1", "hi there".toList, "text", 2, none, none⟩]
    [⟨0, 8, 2, "s1"⟩] "hi there".toList 0 7).2
    (toResult ⟨0, 8, 2, "s1"⟩ 1000) (by decide) (by decide)

theorem jsCharAt_sub_one (content : List Char) (n : Nat) :
    jsCharAt content ((n + 1 : Nat) - (1 : Int)) = content.get? n := by
  have h1 : ((n + 1 : Nat) : Int) - 1 = (n : Int) := by push_cast; ring
  rw [h1]
  unfold jsCharAt
  rw [if_neg (by omega)]
  simp

theorem jsCharAt_sub_two (content : List Char) (k : Nat) :
    jsCharAt content ((k + 2 : Nat) - (2 : Int)) = content.get? k := by
  have h1 : ((k + 2 : Nat) : Int) - 2 = (k : Int) := by push_cast; ring
  rw [h1]
  unfold jsCharAt
  rw [if_neg (by omega)]
  simp

/-- C5: from the idle state, `checkForCommand` activates command mode
(recording position `cursorPos - 1` and an empty query) exactly when
the character immediately before the cursor is the backslash trigger
and either it is the first character of the buffer (`cursorPos = 1`)
or the character before it is whitespace; whenever that condition
fails — in particular for a trigger typed directly after a
non-whitespace character, mid-word — the state stays idle. -/
theorem C5_trigger_activation (chapterId : String) (content : List Char)
    (cursorPos : Nat) :
    (checkForCommand none chapterId content cursorPos =
        some ⟨chapterId, cursorPos - 1, []⟩ ↔
      (1 ≤ cursorPos ∧ content.get? (cursorPos - 1) = some '\\' ∧
        (cursorPos = 1 ∨
          ∃ c, content.get? (cursorPos - 2) = some c ∧ isWS c = true))) ∧
    (¬(1 ≤ cursorPos ∧ content.get? (cursorPos - 1) = some '\\' ∧
        (cursorPos = 1 ∨
          ∃ c, content.get? (cursorPos - 2) = some c ∧ isWS c = true)) →
      checkForCommand none chapterId content cursorPos = none) := by
  have hcond : (((jsCharAt content ((cursorPos : Int) - 1) == some '\\') &&
      ((cursorPos == 1) ||
        (match jsCharAt content ((cursorPos : Int) - 2) with
         | some c => isWS c
         | none => false))) = true) ↔
      (1 ≤ cursorPos ∧ content.get? (cursorPos - 1) = some '\\' ∧
        (cursorPos = 1 ∨
          ∃ c, content.get? (cursorPos - 2) = some c ∧ isWS c = true)) := by
    cases cursorPos with
    | zero =>
      have h0 : jsCharAt content ((0 : Nat) - (1 : Int)) = none := by
        unfold jsCharAt
        rw [if_pos (by omega)]
      rw [h0]
      simp
    | succ n =>
      rw [jsCharAt_sub_one content n]
      cases n with
      | zero =>
        have h2 : jsCharAt content ((1 : Nat) - (2 : Int)) = none := by
          unfold jsCharAt
          rw [if_pos (by omega)]
        rw [h2]
        cases hg : content.get? 0 with
        | none => simp [← List.get?_eq_getElem?, hg]
        | some c =>
          by_cases hc : c = '\\'
          · subst hc
            simp [← List.get?_eq_getElem?, hg]
          · simp [← List.get?_eq_getElem?, hg, hc]
      | succ k =>
        rw [jsCharAt_sub_two content k]
        have hne1 : ¬(k + 2 = 1) := by omega
        cases hg : content.get? (k + 1) with
        | none => simp [← List.get?_eq_getElem?, hg, hne1]
        | some c =>
          by_cases hc : c = '\\'
          · subst hc
            cases hg2 : content.get? k with
            | none => simp [← List.get?_eq_getElem?, hg, hg2, hne1]
            | some d =>
              by_cases hd : isWS d = true
              · simp [← List.get?_eq_getElem?, hg, hg2, hne1, hd]
              · simp [← List.get?_eq_getElem?, hg, hg2, hne1, hd]
          · simp [← List.get?_eq_getElem?, hg, hc, hne1]
  simp only [checkForCommand]
  by_cases hc : (1 ≤ cursorPos ∧ content.get? (cursorPos - 1) = some '\\' ∧
      (cursorPos = 1 ∨
        ∃ c, content.get? (cursorPos - 2) = some c ∧ isWS c = true))
  · rw [if_pos (hcond.mpr hc)]
    exact ⟨⟨fun _ => hc, fun _ => rfl⟩, fun h => absurd hc h⟩
  · rw [if_neg (fun hb => hc (hcond.mp hb))]
    constructor
    · constructor
      · intro h
        exact absurd h (by simp)
      · intro h
        exact absurd h hc
    · intro _
      rfl

/-- Witness for C5: a trigger typed mid-word ("a\b", cursor after the
backslash) does not activate command mode. -/
theorem C5_trigger_activation_witness :
    checkForCommand none "ch1" ('a' :: '\\' :: 'b' :: []) 2 = none :=
  (C5_trigger_activation "ch1" ('a' :: '\\' :: 'b' :: []) 2).2 (by decide)

/-- C6 counterexample: with the palette open on query "xyz" the
filtered command list is empty; pressing Enter leaves the state
completely unchanged — in particular command mode stays ACTIVE, it
does not return to idle as the claim asserts. -/
theorem C6_counterexample :
    filteredCommands (some ⟨"ch1", 6, "xyz".toList⟩) = [] ∧
    onEnterTextarea "ch1" 0
        ⟨[("ch1", "Hello \\xyz world".toList)],
          some ⟨"ch1", 6, "xyz".toList⟩, []⟩ =
      ⟨[("ch1", "Hello \\xyz world".toList)],
        some ⟨"ch1", 6, "xyz".toList⟩, []⟩ ∧
    (onEnterTextarea "ch1" 0
        ⟨[("ch1", "Hello \\xyz world".toList)],
          some ⟨"ch1", 6, "xyz".toList⟩, []⟩).commandMode ≠ none := by
  refine ⟨by decide, by decide, by decide⟩

/-- C6 (amended): when a command executes (command mode active for the
chapter and the filtered list non-empty), execution first removes the
trigger token text (trigger character plus query, `query.length + 1`
characters) from the chapter's buffer at the recorded position, then
invokes the selected command's action with `(chapterId, position)`
(the selected command, or the first filtered command when the
selection index is out of range), then returns command mode to idle.
When the filtered command list is empty at Enter, nothing happens at
all: the buffer, the action log AND the command mode are left
unchanged — in particular the mode stays active rather than returning
to idle. -/
theorem executeCommand_some (cmd : Command) (st : CmdState)
    (cm : CommandMode) (hcm : st.commandMode = some cm) :
    executeCommand cmd st =
      { contents := setContent st.contents cm.chapterId
          ((lookupContent st.contents cm.chapterId).take cm.position ++
            (lookupContent st.contents cm.chapterId).drop
              (cm.position + cm.query.length + 1))
        commandMode := none
        actionLog := st.actionLog ++
          [(cmd.action, cm.chapterId, cm.position)] } := by
  unfold executeCommand
  rw [hcm]

theorem onEnterTextarea_some (chapterId : String) (selectedIndex : Nat)
    (st : CmdState) (cm : CommandMode) (hcm : st.commandMode = some cm) :
    onEnterTextarea chapterId selectedIndex st =
      if cm.chapterId = chapterId then
        match (filteredCommands (some cm)).get? selectedIndex,
            (filteredCommands (some cm)).head? with
        | some c, _ => executeCommand c st
        | none, some c0 => executeCommand c0 st
        | none, none => st
      else st := by
  unfold onEnterTextarea
  rw [hcm]

theorem C6_execute_enter (chapterId : String) (selectedIndex : Nat)
    (st : CmdState) :
    (∀ cm, st.commandMode = some cm → cm.chapterId = chapterId →
      filteredCommands st.commandMode = [] →
      onEnterTextarea chapterId selectedIndex st = st) ∧
    (∀ cm, st.commandMode = some cm → cm.chapterId = chapterId →
      filteredCommands st.commandMode ≠ [] →
      ∃ cmd,
        ((filteredCommands st.commandMode).get? selectedIndex = some cmd ∨
          ((filteredCommands st.commandMode).get? selectedIndex = none ∧
            (filteredCommands st.commandMode).head? = some cmd)) ∧
        onEnterTextarea chapterId selectedIndex st =
          { contents := setContent st.contents cm.chapterId
              ((lookupContent st.contents cm.chapterId).take cm.position ++
                (lookupContent st.contents cm.chapterId).drop
                  (cm.position + cm.query.length + 1))
            commandMode := none
            actionLog := st.actionLog ++
              [(cmd.action, cm.chapterId, cm.position)] }) := by
  constructor
  · intro cm hcm hch hfil
    rw [hcm] at hfil
    rw [onEnterTextarea_some chapterId selectedIndex st cm hcm, if_pos hch,
      hfil]
    rfl
  · intro cm hcm hch hfil
    rw [hcm] at hfil
    rw [hcm]
    rw [onEnterTextarea_some chapterId selectedIndex st cm hcm, if_pos hch]
    cases hidx : (filteredCommands (some cm)).get? selectedIndex with
    | some cmd =>
      refine ⟨cmd, Or.inl rfl, ?_⟩
      show executeCommand cmd st = _
      exact executeCommand_some cmd st cm hcm
    | none =>
      cases hhead : (filteredCommands (some cm)).head? with
      | none =>
        exact absurd (List.head?_eq_none_iff.mp hhead) hfil
      | some c0 =>
        refine ⟨c0, Or.inr ⟨rfl, rfl⟩, ?_⟩
        show executeCommand c0 st = _
        exact executeCommand_some c0 st cm hcm

/-- Witness for C6: executing the split command from an open palette
with query "spl" removes the token "\spl" (4 characters) from the
buffer, logs the invocation of the split action with the recorded
position, and closes the palette. -/
theorem C6_execute_enter_witness :
    ∃ cmd,
      ((filteredCommands (some ⟨"ch1", 2, "spl".toList⟩)).get? 0 =
          some cmd ∨
        ((filteredCommands (some ⟨"ch1", 2, "spl".toList⟩)).get? 0 = none ∧
          (filteredCommands (some ⟨"ch1", 2, "spl".toList⟩)).head? =
            some cmd)) ∧
      onEnterTextarea "ch1" 0
          ⟨[("ch1", "a \\spl b".toList)], some ⟨"ch1", 2, "spl".toList⟩,
            []⟩ =
        { contents := setContent [("ch1", "a \\spl b".toList)] "ch1"
            (("a \\spl b".toList).take 2 ++ ("a \\spl b".toList).drop 6)
          commandMode := none
          actionLog := [] ++ [(cmd.action, "ch1", 2)] } := by
  have h := (C6_execute_enter "ch1" 0
    ⟨[("ch1", "a \\spl b".toList)], some ⟨"ch1", 2, "spl".toList⟩, []⟩).2
    ⟨"ch1", 2, "spl".toList⟩ rfl rfl (by decide)
  obtain ⟨cmd, hsel, heq⟩ := h
  refine ⟨cmd, hsel, ?_⟩
  rw [heq]
  rfl

theorem lookupContent_set_self : ∀ (m : List (String × List Char))
    (k : String) (v : List Char), lookupContent (setContent m k v) k = v
  | [], k, v => by
    simp [setContent, lookupContent, List.find?_cons]
  | kv :: rest, k, v => by
    by_cases hk : (kv.1 == k) = true
    · simp [setContent, lookupContent, List.find?_cons, hk]
    · have hkf : (kv.1 == k) = false := by simpa using hk
      have ih := lookupContent_set_self rest k v
      simp only [setContent, hkf, if_false, lookupContent,
        List.find?_cons, Bool.false_eq_true] at ih ⊢
      simpa [hkf] using ih

theorem lookupContent_set_other : ∀ (m : List (String × List Char))
    (k k2 : String) (v : List Char), k2 ≠ k →
    lookupContent (setContent m k v) k2 = lookupContent m k2
  | [], k, k2, v, h => by
    have : (k == k2) = false := by simp [Ne.symm h]
    simp [setContent, lookupContent, List.find?_cons, this]
  | kv :: rest, k, k2, v, h => by
    by_cases hk : (kv.1 == k) = true
    · have hkv : kv.1 = k := by simpa using hk
      have h1 : (k == k2) = false := by simp [Ne.symm h]
      have h2 : (kv.1 == k2) = false := by simp [hkv, Ne.symm h]
      simp [setContent, lookupContent, List.find?_cons, hk, h1, h2]
    · have hkf : (kv.1 == k) = false := by simpa using hk
      have ih := lookupContent_set_other rest k k2 v h
      by_cases h2 : (kv.1 == k2) = true
      · simp [setContent, lookupContent, List.find?_cons, hkf, h2]
      · have h2f : (kv.1 == k2) = false := by simpa using h2
        simp only [setContent, hkf, if_false, lookupContent,
          List.find?_cons, Bool.false_eq_true] at ih ⊢
        simpa [h2f] using ih

theorem find?_get_findIdx :
    ∀ (l : List Chapter) (p : Chapter → Bool) (a : Chapter),
      l.find? p = some a → l.get? (l.findIdx p) = some a
  | [], _, _ => by simp
  | ch :: rest, p, a => by
    intro h
    rw [List.find?_cons] at h
    by_cases hp : p ch = true
    · rw [hp] at h
      have hch : ch = a := by simpa using h
      subst hch
      rw [List.findIdx_cons]
      simp [hp]
    · have hpf : p ch = false := by simpa using hp
      rw [hpf] at h
      rw [List.findIdx_cons]
      simp only [hpf, cond_false]
      simpa using find?_get_findIdx rest p a (by simpa using h)

theorem findIdx_lt_of_find? (l : List Chapter) (p : Chapter → Bool)
    (a : Chapter) (h : l.find? p = some a) : l.findIdx p < l.length := by
  have := find?_get_findIdx l p a h
  by_contra hc
  rw [List.get?_eq_none.mpr (by omega)] at this
  exact absurd this (by simp)

theorem newId_ne (chapterId : String) (now : Nat) :
    chapterId ++ "-split-" ++ toString now ≠ chapterId := by
  intro h
  have := congrArg String.length h
  rw [String.length_append, String.length_append] at this
  have h7 : ("-split-" : String).length = 7 := rfl
  omega

theorem splitChapter_success (st : DocState) (chapterId : String)
    (position now : Nat) (chapter : Chapter)
    (hfind : st.chapters.find? (fun ch => ch.chapter_id == chapterId) =
      some chapter)
    (hb : trimWS ((lookupContent st.contents chapterId).take position) ≠ [])
    (ha : trimWS ((lookupContent st.contents chapterId).drop position) ≠ []) :
    splitChapter st chapterId position now =
      { chapters :=
          st.chapters.take
            (st.chapters.findIdx (fun ch => ch.chapter_id == chapterId) + 1) ++
          (⟨chapterId ++ "-split-" ++ toString now,
            chapter.title ++ " (Part 2)",
            chapter.sections.map (fun s =>
              { s with section_id := s.section_id ++ "-split",
                       content := [] })⟩ : Chapter) ::
          st.chapters.drop
            (st.chapters.findIdx (fun ch => ch.chapter_id == chapterId) + 1)
        contents :=
          setContent
            (setContent st.contents chapterId
              (trimWS ((lookupContent st.contents chapterId).take position)))
            (chapterId ++ "-split-" ++ toString now)
            (trimWS ((lookupContent st.contents chapterId).drop position)) } := by
  unfold splitChapter
  rw [if_neg (by simp [List.isEmpty_iff, hb, ha]), hfind]

/-- C7: `splitChapter` fails with no mutation at all exactly when
either half of the chapter's current buffer is empty after trimming —
in particular at position 0 and at position = buffer length; on
success the source chapter keeps its place and its buffer becomes the
trimmed before-text, and a new chapter titled with the suffix
" (Part 2)" is inserted immediately after it holding the trimmed
after-text, growing the chapter list by one. -/
theorem C7_splitChapter (st : DocState) (chapterId : String)
    (position now : Nat) (chapter : Chapter)
    (hfind : st.chapters.find? (fun ch => ch.chapter_id == chapterId) =
      some chapter) :
    (splitChapter st chapterId position now = st ↔
      (trimWS ((lookupContent st.contents chapterId).take position) = [] ∨
        trimWS ((lookupContent st.contents chapterId).drop position) = [])) ∧
    splitChapter st chapterId 0 now = st ∧
    splitChapter st chapterId (lookupContent st.contents chapterId).length
      now = st ∧
    (trimWS ((lookupContent st.contents chapterId).take position) ≠ [] →
      trimWS ((lookupContent st.contents chapterId).drop position) ≠ [] →
      (splitChapter st chapterId position now).chapters.get?
          (st.chapters.findIdx (fun ch => ch.chapter_id == chapterId)) =
        some chapter ∧
      (splitChapter st chapterId position now).chapters.get?
          (st.chapters.findIdx (fun ch => ch.chapter_id == chapterId) + 1) =
        some ⟨chapterId ++ "-split-" ++ toString now,
          chapter.title ++ " (Part 2)",
          chapter.sections.map (fun s =>
            { s with section_id := s.section_id ++ "-split",
                     content := [] })⟩ ∧
      lookupContent (splitChapter st chapterId position now).contents
          chapterId =
        trimWS ((lookupContent st.contents chapterId).take position) ∧
      lookupContent (splitChapter st chapterId position now).contents
          (chapterId ++ "-split-" ++ toString now) =
        trimWS ((lookupContent st.contents chapterId).drop position) ∧
      (splitChapter st chapterId position now).chapters.length =
        st.chapters.length + 1) := by
  have hidx : st.chapters.findIdx (fun ch => ch.chapter_id == chapterId) <
      st.chapters.length :=
    findIdx_lt_of_find? st.chapters _ chapter hfind
  have hfail : ∀ pos2 : Nat,
      (trimWS ((lookupContent st.contents chapterId).take pos2) = [] ∨
        trimWS ((lookupContent st.contents chapterId).drop pos2) = []) →
      splitChapter st chapterId pos2 now = st := by
    intro pos2 hor
    unfold splitChapter
    rw [if_pos ?hc]
    case hc =>
      rcases hor with h1 | h1
      · simp [List.isEmpty_iff, h1]
      · simp [List.isEmpty_iff, h1]
  have hsucc := splitChapter_success st chapterId position now chapter hfind
  refine ⟨⟨?_, hfail position⟩, hfail 0 (Or.inl rfl),
    hfail (lookupContent st.contents chapterId).length
      (Or.inr (by rw [List.drop_length]; rfl)), ?_⟩
  · intro heq
    by_contra hor
    push_neg at hor
    have hs := hsucc hor.1 hor.2
    rw [heq] at hs
    have hlen := congrArg (fun s => s.chapters.length) hs
    simp only [List.length_append, List.length_take, List.length_cons,
      List.length_drop] at hlen
    omega
  · intro hb ha
    have hs := hsucc hb ha
    rw [hs]
    have hlen_take : (st.chapters.take
        (st.chapters.findIdx (fun ch => ch.chapter_id == chapterId) + 1)).length =
        st.chapters.findIdx (fun ch => ch.chapter_id == chapterId) + 1 := by
      rw [List.length_take]
      omega
    refine ⟨?_, ?_, ?_, ?_, ?_⟩
    · rw [List.get?_append (by omega), List.get?_take (by omega)]
      exact find?_get_findIdx st.chapters _ chapter hfind
    · rw [List.get?_append_right (by omega), hlen_take]
      simp
    · rw [lookupContent_set_other _ _ _ _ (Ne.symm (newId_ne chapterId now)),
        lookupContent_set_self]
    · rw [lookupContent_set_self]
    · simp only [List.length_append, List.length_take, List.length_cons,
        List.length_drop]
      omega

/-- Witness for C7: splitting "Hello world" at 5 yields "Hello" and
"world"; splitting at 0 or at the buffer length changes nothing. -/
theorem C7_splitChapter_witness :
    lookupContent (splitChapter ⟨[⟨"ch1", "Title", []⟩],
        [("ch1", "Hello world".toList)]⟩ "ch1" 5 0).contents "ch1" =
      "Hello".toList ∧
    lookupContent (splitChapter ⟨[⟨"ch1", "Title", []⟩],
        [("ch1", "Hello world".toList)]⟩ "ch1" 5 0).contents
      "ch1-split-0" = "world".toList ∧
    splitChapter ⟨[⟨"ch1", "Title", []⟩], [("ch1", "Hello world".toList)]⟩
      "ch1" 0 0 =
      ⟨[⟨"ch1", "Title", []⟩], [("ch1", "Hello world".toList)]⟩ ∧
    splitChapter ⟨[⟨"ch1", "Title", []⟩], [("ch1", "Hello world".toList)]⟩
      "ch1" 11 0 =
      ⟨[⟨"ch1", "Title", []⟩], [("ch1", "Hello world".toList)]⟩ := by
  have h := C7_splitChapter ⟨[⟨"ch1", "Title", []⟩],
    [("ch1", "Hello world".toList)]⟩ "ch1" 5 0 ⟨"ch1", "Title", []⟩
    (by decide)
  obtain ⟨-, h0, hlen, hsucc⟩ := h
  have hs := hsucc (by decide) (by decide)
  exact ⟨hs.2.2.1.trans (by decide), hs.2.2.2.1.trans (by decide), h0, hlen⟩

/-- C9 counterexample: showNotification("A") at t = 0 schedules an
unconditional clear at t = 3000 which is never cancelled; a second
notification "B" shown at t = 2000 (while that timer is pending)
should, per the claim, stay visible through t = 3500 < 2000 + 3000 —
but the state at t = 3500 is already cleared. -/
theorem C9_counterexample :
    notificationAt [(0, "A"), (2000, "B")] 3500 ≠ some "B" ∧
    notificationAt [(0, "A"), (2000, "B")] 3500 = none ∧
    2000 < 0 + 3000 ∧ 2000 ≤ 3500 ∧ 3500 < 2000 + 3000 := by
  refine ⟨by decide, by decide, by omega, by omega, by omega⟩

/-- C9 (amended): when a second notification is shown at `t2` while
the first notification's timer (scheduled at `t1 + 3000`) is still
pending, the new notification is NOT superseding that timer: it stays
visible only until `t1 + 3000`, at which point the first
notification's un-cancelled timeout clears the state, earlier than
the full 3000 ms measured from `t2`. -/
theorem C9_notification_timer (t1 t2 : Nat) (m1 m2 : String) (T : Nat)
    (h12 : t1 < t2) (hpend : t2 < t1 + 3000) (hT1 : t2 ≤ T)
    (hT2 : T < t2 + 3000) :
    notificationAt [(t1, m1), (t2, m2)] T =
      if T < t1 + 3000 then some m2 else none := by
  have i1 : insertByTime (t2 + 3000, NEvent.expire) [] =
      [(t2 + 3000, NEvent.expire)] := rfl
  have i2 : insertByTime (t2, NEvent.show m2) [(t2 + 3000, NEvent.expire)] =
      [(t2, NEvent.show m2), (t2 + 3000, NEvent.expire)] := by
    unfold insertByTime
    rw [if_pos (show t2 < t2 + 3000 by omega)]
  have i3 : insertByTime (t1 + 3000, NEvent.expire)
      [(t2, NEvent.show m2), (t2 + 3000, NEvent.expire)] =
      [(t2, NEvent.show m2), (t1 + 3000, NEvent.expire),
        (t2 + 3000, NEvent.expire)] := by
    unfold insertByTime
    rw [if_neg (show ¬(t1 + 3000 < t2) by omega)]
    unfold insertByTime
    rw [if_pos (show t1 + 3000 < t2 + 3000 by omega)]
  have i4 : insertByTime (t1, NEvent.show m1)
      [(t2, NEvent.show m2), (t1 + 3000, NEvent.expire),
        (t2 + 3000, NEvent.expire)] =
      [(t1, NEvent.show m1), (t2, NEvent.show m2),
        (t1 + 3000, NEvent.expire), (t2 + 3000, NEvent.expire)] := by
    unfold insertByTime
    rw [if_pos (show t1 < t2 by omega)]
  have hev : eventsOf [(t1, m1), (t2, m2)] =
      [(t1, NEvent.show m1), (t2, NEvent.show m2),
        (t1 + 3000, NEvent.expire), (t2 + 3000, NEvent.expire)] := by
    unfold eventsOf
    rw [show ([(t1, m1), (t2, m2)] : List (Nat × String)).flatMap
        (fun sh => [(sh.1, NEvent.show sh.2), (sh.1 + 3000, NEvent.expire)]) =
        [(t1, NEvent.show m1), (t1 + 3000, NEvent.expire),
          (t2, NEvent.show m2), (t2 + 3000, NEvent.expire)] from rfl]
    rw [List.foldr_cons, List.foldr_cons, List.foldr_cons, List.foldr_cons,
      List.foldr_nil, i1, i2, i3, i4]
  unfold notificationAt
  rw [hev]
  rw [List.filter_cons, if_pos (decide_eq_true (show t1 ≤ T by omega)),
    List.filter_cons, if_pos (decide_eq_true (show t2 ≤ T by omega)),
    List.filter_cons]
  by_cases hc : t1 + 3000 ≤ T
  · rw [if_pos (decide_eq_true hc), List.filter_cons,
      if_neg (by simp only [decide_eq_true_eq]; omega), List.filter_nil,
      if_neg (show ¬T < t1 + 3000 by omega)]
    rfl
  · rw [if_neg (by simp only [decide_eq_true_eq]; omega), List.filter_cons,
      if_neg (by simp only [decide_eq_true_eq]; omega), List.filter_nil,
      if_pos (show T < t1 + 3000 by omega)]
    rfl

/-- Witness for C9: with shows at 0 and 2000, the notification is
already gone at 3500 (the first timer fired at 3000). -/
theorem C9_notification_timer_witness :
    notificationAt [(0, "A"), (2000, "B")] 3500 = none := by
  have h := C9_notification_timer 0 2000 "A" "B" 3500 (by omega) (by omega)
    (by omega) (by omega)
  simpa using h
